import Mathlib

/-!
Burst detection and category novelty (serial and OpenMP versions).

Shallow embedding of `src/serial/project_serial.c` and
`src/parallel_omp/Project_parallel.c`.

Conventions of the embedding

* a C array `const Transaction a[]` is a `List Transaction`; the element count `n`
  is passed separately, as in the C signatures;
* `size_t` values are natural numbers; a `size_t` counter is reduced modulo `2^64`
  after each update, and the `size_t` subtraction `end - start` is `sub_sz`;
* `long long` values are integers; the subtraction of two timestamps is `sub_ll`,
  which wraps to the signed 64-bit range;
* a `char *` string is a Lean `String` (the characters before the terminator);
* every `while`/`for` loop is a function that recurses on a fuel argument; the caller
  passes the distance that the loop variable still has to travel, and the lemmas
  `scanWhile_stop`, `blockEnd_stop` show that this amount reaches the loop exit.
-/

namespace PDC

/-- The record of one CSV row (`typedef struct { ... } Transaction`). -/
structure Transaction where
  cc_num : Int
  unix_time : Int
  category : String
  is_fraud : Int
deriving DecidableEq, Repr

/-- Array read `a[i]`.  Every read in the embedded code is guarded by `i < n`; outside
the array the model returns a fixed record. -/
def tx (a : List Transaction) (i : Nat) : Transaction :=
  a.getD i ⟨0, 0, "", 0⟩

/-- Number of values of `size_t` (64-bit). -/
def SIZE_MOD : Nat := 2 ^ 64

/-- Reduction of an integer to the range of `long long`, two's complement. -/
def wrap_ll (z : Int) : Int := (z + 2 ^ 63) % 2 ^ 64 - 2 ^ 63

/-- The `long long` subtraction `x - y`. -/
def sub_ll (x y : Int) : Int := wrap_ll (x - y)

/-- The `size_t` subtraction `x - y` of two values below `2^64`. -/
def sub_sz (x y : Nat) : Nat := (x + SIZE_MOD - y) % SIZE_MOD

/-- The `size_t` increment `x++`. -/
def inc_sz (x : Nat) : Nat := (x + 1) % SIZE_MOD

/-- The `size_t` addition `x + y`. -/
def add_sz (x y : Nat) : Nat := (x + y) % SIZE_MOD

/-- Loop `while (k < bound && p(k)) k++;` started at `k`, returning the final `k`. -/
def scanWhile (bound : Nat) (p : Nat → Bool) : Nat → Nat → Nat
  | 0, k => k
  | fuel + 1, k => if k < bound ∧ p k = true then scanWhile bound p fuel (k + 1) else k

/-- Lines 76-77 of the serial file: `j = i; while (j < n && a[j].cc_num == card) j++;`. -/
def blockEnd (a : List Transaction) (n : Nat) (card : Int) (i : Nat) : Nat :=
  scanWhile n (fun k => decide ((tx a k).cc_num = card)) (n - i) i

/-- Inner loop of the burst scan:
`while (end < j && (a[end].unix_time - a[start].unix_time) <= W) end++;`. -/
def advanceEnd (a : List Transaction) (W : Int) (j start e : Nat) : Nat :=
  scanWhile j (fun k => decide (sub_ll (tx a k).unix_time (tx a start).unix_time ≤ W)) (j - e) e

/-- Loop `while (start < j) { ...; start++; }` of the burst scan of one block; `cnt` is the
counter that the body increments (`suspicious` in the serial file, `local_cnt` in the
parallel one). -/
def burstLoop (a : List Transaction) (W : Int) (T : Nat) (j : Nat) :
    Nat → Nat → Nat → Nat → Nat
  | 0, _, _, cnt => cnt
  | fuel + 1, start, e, cnt =>
    if start < j then
      let e1 := advanceEnd a W j start e
      let cnt1 := if T ≤ sub_sz e1 start then inc_sz cnt else cnt
      burstLoop a W T j fuel (start + 1) e1 cnt1
    else cnt

/-- Burst scan of the block `[i, j)` starting with counter value `cnt`
(`size_t start = i, end = i; while (start < j) ...`). -/
def burstBlock (a : List Transaction) (W : Int) (T : Nat) (i j cnt : Nat) : Nat :=
  burstLoop a W T j (j - i) i i cnt

/-- Outer loop `for (size_t i = 0; i < n; ) { ...; i = j; }` of the serial `countBurst`. -/
def countBurstLoop (a : List Transaction) (n : Nat) (W : Int) (T : Nat) :
    Nat → Nat → Nat → Nat
  | 0, _, suspicious => suspicious
  | fuel + 1, i, suspicious =>
    if i < n then
      let card := (tx a i).cc_num
      let j := blockEnd a n card i
      countBurstLoop a n W T fuel j (burstBlock a W T i j suspicious)
    else suspicious

/-- Serial `countBurst(a, n, W, T)`. -/
def countBurst (a : List Transaction) (n : Nat) (W : Int) (T : Nat) : Nat :=
  countBurstLoop a n W T n 0 0

/-- First pass of `build_card_blocks`:
`for (size_t i = 1; i < n; ++i) if (a[i].cc_num != a[i - 1].cc_num) ++nb;`. -/
def countBlocks (a : List Transaction) (n : Nat) : Nat → Nat → Nat → Nat
  | 0, _, nb => nb
  | fuel + 1, i, nb =>
    if i < n then
      countBlocks a n fuel (i + 1)
        (if (tx a i).cc_num ≠ (tx a (i - 1)).cc_num then inc_sz nb else nb)
    else nb

/-- Second pass of `build_card_blocks`: the loop `for (size_t i = 1; i <= n; ++i)` that
writes `starts[bi]` and `ends[bi]`.  The state is `(bi, s, starts, ends)`. -/
def fillBlocks (a : List Transaction) (n : Nat) :
    Nat → Nat → Nat → Nat → List Nat → List Nat → List Nat × List Nat
  | 0, _, _, _, starts, ends => (starts, ends)
  | fuel + 1, i, bi, s, starts, ends =>
    if i ≤ n then
      if i = n ∨ (tx a i).cc_num ≠ (tx a (i - 1)).cc_num then
        fillBlocks a n fuel (i + 1) (bi + 1) i (starts.set bi s) (ends.set bi i)
      else
        fillBlocks a n fuel (i + 1) bi s starts ends
    else (starts, ends)

/-- The function `build_card_blocks(a, n, &starts, &ends, &nb)`; the result is
`(starts, ends, nb)`.  For `n = 0` both arrays are `NULL` (the empty list).  The two
`malloc` calls are taken to succeed and return arrays of `nb` cells. -/
def build_card_blocks (a : List Transaction) (n : Nat) : List Nat × List Nat × Nat :=
  if n = 0 then ([], [], 0)
  else
    let nb := countBlocks a n (n - 1) 1 1
    let r := fillBlocks a n n 1 0 0 (List.replicate nb 0) (List.replicate nb 0)
    (r.1, r.2, nb)

/-- Body of the `for (bi ...)` loop of `countBurst_parallel`: the value of `local_cnt`
for block `bi`. -/
def burstLocal (a : List Transaction) (W : Int) (T : Nat) (starts ends : List Nat)
    (bi : Nat) : Nat :=
  burstBlock a W T (starts.getD bi 0) (ends.getD bi 0) 0

/-- Body of the `for (bi ...)` loop of `countBurst_parallel` as a function of the
accumulator: `sum += local_cnt`. -/
def burstStep (a : List Transaction) (W : Int) (T : Nat) (starts ends : List Nat)
    (sum bi : Nat) : Nat :=
  add_sz sum (burstLocal a W T starts ends bi)

/-- The function `countBurst_parallel`, with the blocks taken in index order and one
accumulator: the loop body runs for `bi = 0, ..., nb - 1`. -/
def countBurst_parallel (a : List Transaction) (_n : Nat) (W : Int) (T : Nat)
    (starts ends : List Nat) (nb : Nat) : Nat :=
  (List.range nb).foldl (burstStep a W T starts ends) 0

/-- Library function `strcmp` on the characters of two strings: negative, zero or positive
as the first string is lexicographically below, equal to or above the second (only the
sign is fixed by the C standard; the model returns `-1`, `0`, `1`).  Characters are compared
by code point, which orders UTF-8 strings as the byte comparison of C does. -/
def strcmpChars : List Char → List Char → Int
  | [], [] => 0
  | [], _ :: _ => -1
  | _ :: _, [] => 1
  | x :: xs, y :: ys => if x < y then -1 else if y < x then 1 else strcmpChars xs ys

/-- Library function `strcmp(s, t)`. -/
def strcmp (s t : String) : Int := strcmpChars s.data t.data

/-- Comparator `cmp_str`, applied to the two strings its arguments point to. -/
def cmp_str (s t : String) : Int := strcmp s t

/-- Library function `qsort(base, m, size, cmp)`: the array rearranged into an order in
which `cmp x y <= 0` for every `x` placed before `y`.  The model is insertion sort; for
`cmp_str` every sorted rearrangement is the same list (`qsort_unique`). -/
def qsort {α : Type} (cmp : α → α → Int) (l : List α) : List α :=
  l.insertionSort (fun x y => cmp x y ≤ 0)

/-- The copy loop `for (k = 0; k < m; k++) cats[k] = a[i + k].category;`: the contents of
`cats` for the block at `i` of size `m`. -/
def blockCats (a : List Transaction) (i m : Nat) : List String :=
  (List.range m).map (fun k => (tx a (i + k)).category)

/-- The array `cats` after `qsort(cats, m, sizeof(char*), cmp_str)`. -/
def sortedCats (a : List Transaction) (i m : Nat) : List String :=
  qsort cmp_str (blockCats a i m)

/-- Counting loop of the serial file:
`for (k = 0; k < m; k++) if (k == 0 || strcmp(cats[k], cats[k - 1]) != 0) unique++;`. -/
def uniqueLoop (cats : List String) (m : Nat) : Nat → Nat → Nat → Nat
  | 0, _, unique => unique
  | fuel + 1, k, unique =>
    if k < m then
      uniqueLoop cats m fuel (k + 1)
        (if k = 0 ∨ strcmp (cats.getD k "") (cats.getD (k - 1) "") ≠ 0 then inc_sz unique
         else unique)
    else unique

/-- Outer loop `for (size_t i = 0; i < n; ) { ...; i = j; }` of the serial
`countCategoryNovelty_likeSource`.  `mallocOk i` tells whether the `malloc` of the block
that starts at `i` returns a non-null pointer; the serial file does not test the pointer,
so a null pointer is written through at `cats[0]` and the run has no result (`none`). -/
def noveltyLoop (mallocOk : Nat → Bool) (a : List Transaction) (n : Nat) :
    Nat → Nat → Nat → Option Nat
  | 0, _, suspicious => some suspicious
  | fuel + 1, i, suspicious =>
    if i < n then
      let card := (tx a i).cc_num
      let j := blockEnd a n card i
      let m := sub_sz j i
      if mallocOk i = true then
        let cats := sortedCats a i m
        let unique := uniqueLoop cats m m 0 0
        noveltyLoop mallocOk a n fuel j (add_sz suspicious unique)
      else none
    else some suspicious

/-- Serial `countCategoryNovelty_likeSource(a, n)`. -/
def countCategoryNovelty_likeSource (mallocOk : Nat → Bool) (a : List Transaction)
    (n : Nat) : Option Nat :=
  noveltyLoop mallocOk a n n 0 0

/-- Counting loop of the parallel file:
`for (k = 0; k < m; ) { unique++; t = k + 1;
  while (t < m && strcmp(cats[t], cats[k]) == 0) t++; k = t; }`. -/
def groupLoop (cats : List String) (m : Nat) : Nat → Nat → Nat → Nat
  | 0, _, unique => unique
  | fuel + 1, k, unique =>
    if k < m then
      let t := scanWhile m (fun t => decide (strcmp (cats.getD t "") (cats.getD k "") = 0))
        (m - (k + 1)) (k + 1)
      groupLoop cats m fuel t (inc_sz unique)
    else unique

/-- Body of the `for (bi ...)` loop of `countCategoryNovelty_parallel` as a function of the
accumulator `sum`.  `mallocOk bi` tells whether the `malloc` of block `bi` returns a
non-null pointer; both `continue` statements leave `sum` as it is. -/
def noveltyStep (mallocOk : Nat → Bool) (a : List Transaction) (starts ends : List Nat)
    (sum bi : Nat) : Nat :=
  let i := starts.getD bi 0
  let j := ends.getD bi 0
  let m := sub_sz j i
  if m = 0 then sum
  else if mallocOk bi = false then sum
  else
    let cats := sortedCats a i m
    let unique := groupLoop cats m m 0 0
    add_sz sum unique

/-- The function `countCategoryNovelty_parallel`, with the blocks taken in index order and
one accumulator. -/
def countCategoryNovelty_parallel (mallocOk : Nat → Bool) (a : List Transaction) (_n : Nat)
    (starts ends : List Nat) (nb : Nat) : Nat :=
  (List.range nb).foldl (noveltyStep mallocOk a starts ends) 0

/-- What block `bi` adds to the accumulator in `countCategoryNovelty_parallel`. -/
def noveltyLocal (mallocOk : Nat → Bool) (a : List Transaction) (starts ends : List Nat)
    (bi : Nat) : Nat :=
  if sub_sz (ends.getD bi 0) (starts.getD bi 0) = 0 then 0
  else if mallocOk bi = false then 0
  else groupLoop (sortedCats a (starts.getD bi 0) (sub_sz (ends.getD bi 0) (starts.getD bi 0)))
    (sub_sz (ends.getD bi 0) (starts.getD bi 0)) (sub_sz (ends.getD bi 0) (starts.getD bi 0)) 0 0

/-- Semantics of `#pragma omp parallel for reduction(+:sum)` for one assignment of the
iterations to workers: worker `w` runs the loop body on the iterations `groups[w]`, in that
order, on a private accumulator that starts at `0`; the private accumulators are then added
to the original value `0` of `sum`. -/
def ompReduce (step : Nat → Nat → Nat) (groups : List (List Nat)) : Nat :=
  groups.foldl (fun total g => add_sz total (g.foldl step 0)) 0

/-- Every allocation succeeds. -/
def allocOk : Nat → Bool := fun _ => true

/-- Allocation oracle under which the `malloc` of block `1` fails and every other one
succeeds. -/
def failSecond : Nat → Bool := fun bi => decide (bi ≠ 1)

/-- Allocation oracle under which every `malloc` fails. -/
def failAll : Nat → Bool := fun _ => false

/-! ## The comparators of the two files -/

namespace Serial

/-- Comparator `cmp_tx` of the serial file (if/else form), applied to the two records its
arguments point to. -/
def cmp_tx (a b : Transaction) : Int :=
  let cmp_cc : Int :=
    if a.cc_num > b.cc_num then 1
    else if a.cc_num < b.cc_num then -1
    else 0
  if cmp_cc ≠ 0 then cmp_cc
  else if a.unix_time > b.unix_time then 1
  else if a.unix_time < b.unix_time then -1
  else 0

end Serial

namespace Parallel

/-- Comparator `cmp_tx` of the parallel file (branch-free form); a C comparison is the
integer `1` or `0`. -/
def cmp_tx (a b : Transaction) : Int :=
  let cmp_cc : Int :=
    (if a.cc_num > b.cc_num then 1 else 0) - (if a.cc_num < b.cc_num then 1 else 0)
  if cmp_cc ≠ 0 then cmp_cc
  else (if a.unix_time > b.unix_time then 1 else 0) -
    (if a.unix_time < b.unix_time then 1 else 0)

end Parallel

/-! ## Specification-side definitions -/

/-- Element `k` lies in the contiguous run of equal `cc_num` that starts at `s`: every
position from `s` to `k` carries the account of `a[s]`. -/
def inRun (a : List Transaction) (s k : Nat) : Bool :=
  (List.range (k + 1 - s)).all (fun d => decide ((tx a (s + d)).cc_num = (tx a s).cc_num))

/-- Number of elements `k >= s` of the account block of `s` whose timestamp is at most `W`
above that of `a[s]` (exact integer difference). -/
def windowCount (a : List Transaction) (n : Nat) (W : Int) (s : Nat) : Nat :=
  ((List.range n).filter (fun k =>
    decide (s ≤ k) && inRun a s k &&
      decide ((tx a k).unix_time - (tx a s).unix_time ≤ W))).length

/-- Naive burst count: the number of start positions `s < n` whose window holds at least
`T` elements. -/
def naiveBurst (a : List Transaction) (n : Nat) (W : Int) (T : Nat) : Nat :=
  ((List.range n).filter (fun s => decide (T ≤ windowCount a n W s))).length

/-- Position `s` starts a run: it is the first position or its account differs from the
previous one. -/
def isRunStart (a : List Transaction) (s : Nat) : Bool :=
  decide (s = 0) || decide ((tx a s).cc_num ≠ (tx a (s - 1)).cc_num)

/-- The category strings of the run of equal `cc_num` that starts at `s`, in array order. -/
def runCategories (a : List Transaction) (n s : Nat) : List String :=
  ((List.range n).filter (fun k => decide (s ≤ k) && inRun a s k)).map
    (fun k => (tx a k).category)

/-- Number of distinct strings in a list. -/
def distinctCount (l : List String) : Nat := l.dedup.length

/-- Sum over the maximal runs of equal `cc_num` of the number of distinct categories of
the run. -/
def noveltySpec (a : List Transaction) (n : Nat) : Nat :=
  (((List.range n).filter (isRunStart a)).map
    (fun s => distinctCount (runCategories a n s))).sum

/-- The array is sorted by `(cc_num, unix_time)`: for positions `p < q` the account of `p`
is not above that of `q`, and within one account the timestamp of `p` is not above that
of `q`. -/
def SortedTx (a : List Transaction) : Prop :=
  ∀ p q, p < q → q < a.length →
    (tx a p).cc_num ≤ (tx a q).cc_num ∧
    ((tx a p).cc_num = (tx a q).cc_num → (tx a p).unix_time ≤ (tx a q).unix_time)

/-- No difference of two timestamps of the array leaves the range of `long long`. -/
def NoOverflow (a : List Transaction) : Prop :=
  ∀ p q, p < a.length → q < a.length →
    -(2 : Int) ^ 63 ≤ (tx a p).unix_time - (tx a q).unix_time ∧
    (tx a p).unix_time - (tx a q).unix_time < (2 : Int) ^ 63

/-- Timestamps do not decrease along the positions `[i, j)`. -/
def MonoTime (a : List Transaction) (i j : Nat) : Prop :=
  ∀ q, q < j → ∀ p, p < q → i ≤ p → (tx a p).unix_time ≤ (tx a q).unix_time

instance decMonoTime (a : List Transaction) (i j : Nat) : Decidable (MonoTime a i j) := by
  unfold MonoTime; infer_instance

/-- The block `[i, j)` lies on one account. -/
def OneAccount (a : List Transaction) (i j : Nat) : Prop :=
  ∀ k, k < j → i ≤ k → (tx a k).cc_num = (tx a i).cc_num

instance decOneAccount (a : List Transaction) (i j : Nat) : Decidable (OneAccount a i j) := by
  unfold OneAccount; infer_instance

instance decSortedTx (a : List Transaction) : Decidable (SortedTx a) :=
  decidable_of_iff
    (∀ q, q < a.length → ∀ p, p < q →
      (tx a p).cc_num ≤ (tx a q).cc_num ∧
      ((tx a p).cc_num = (tx a q).cc_num → (tx a p).unix_time ≤ (tx a q).unix_time))
    ⟨fun h p q hpq hq => h q hq p hpq, fun h q hq p hpq => h p q hpq hq⟩

instance decNoOverflow (a : List Transaction) : Decidable (NoOverflow a) :=
  decidable_of_iff
    (∀ p, p < a.length → ∀ q, q < a.length →
      -(2 : Int) ^ 63 ≤ (tx a p).unix_time - (tx a q).unix_time ∧
      (tx a p).unix_time - (tx a q).unix_time < (2 : Int) ^ 63)
    ⟨fun h p q hp hq => h p hp q hq, fun h p hp q hq => h p q hp hq⟩

/-- Sign of the lexicographic comparison of `(cc_num, unix_time)`. -/
def lexSign (a b : Transaction) : Int :=
  if a.cc_num < b.cc_num ∨ (a.cc_num = b.cc_num ∧ a.unix_time < b.unix_time) then -1
  else if a.cc_num = b.cc_num ∧ a.unix_time = b.unix_time then 0
  else 1

/-- The array is sorted by `cc_num` ascending. -/
def SortedAcc (a : List Transaction) : Prop :=
  ∀ q, q < a.length → ∀ p, p < q → (tx a p).cc_num ≤ (tx a q).cc_num

instance decSortedAcc (a : List Transaction) : Decidable (SortedAcc a) := by
  unfold SortedAcc; infer_instance

/-! ## Blocks -/

/-- A block `[i, j)` of the array: inside `[0, n)`, uniform in `cc_num`, and closed on the
right by the end of the array or by another account. -/
structure IsBlock (a : List Transaction) (n i j : Nat) : Prop where
  le : j ≤ n
  uniform : ∀ k, i ≤ k → k < j → (tx a k).cc_num = (tx a i).cc_num
  stop : j < n → (tx a j).cc_num ≠ (tx a i).cc_num

/-- The list of `(s, i)` pairs that the second pass of `build_card_blocks` writes, in the
order of the writes: the loop of `fillBlocks` without the two arrays. -/
def segs (a : List Transaction) (n : Nat) : Nat → Nat → Nat → List (Nat × Nat)
  | 0, _, _ => []
  | fuel + 1, i, s =>
    if i ≤ n then
      if i = n ∨ (tx a i).cc_num ≠ (tx a (i - 1)).cc_num then
        (s, i) :: segs a n fuel (i + 1) i
      else segs a n fuel (i + 1) s
    else []

/-- The blocks from position `s` on, as the second pass of `build_card_blocks` lists them
once it has reached a block start `s`. -/
def blocksAt (a : List Transaction) (n s : Nat) : List (Nat × Nat) :=
  if s < n then segs a n (n - s) (s + 1) s else []

/-- The set of the first `k` values of `g`. -/
def seen (g : Nat → String) (k : Nat) : Finset String :=
  ((List.range k).map g).toFinset

/-! ## Instrumented loops -/

/-- The indices `k` at which the loop `while (k < bound && p(k)) k++;` evaluates `p(k)`,
that is, at which it reads its array, in order. -/
def scanReads (bound : Nat) (p : Nat → Bool) : Nat → Nat → List Nat
  | 0, _ => []
  | fuel + 1, k =>
    if k < bound then k :: (if p k = true then scanReads bound p fuel (k + 1) else [])
    else []

/-- Number of times the loop `while (k < bound && p(k)) k++;` runs its body `k++`. -/
def scanSteps (bound : Nat) (p : Nat → Bool) : Nat → Nat → Nat
  | 0, _ => 0
  | fuel + 1, k => if k < bound ∧ p k = true then scanSteps bound p fuel (k + 1) + 1 else 0

/-- One iteration of the loop `while (start < j)` of the burst scan, as observed at the
statement `if ((end - start) >= T)`. -/
structure ScanStep where
  /-- Value of `start`. -/
  start : Nat
  /-- Value of `end` when the iteration begins. -/
  endIn : Nat
  /-- Value of `end` when `end - start` is evaluated. -/
  endOut : Nat
  /-- Indices `k` at which the inner loop reads `a[k]` (as `a[end]`) in this iteration;
  `a[start]` is read in the same expression. -/
  reads : List Nat
  /-- Number of executions of `end++` in this iteration. -/
  steps : Nat
deriving DecidableEq, Repr

/-- The burst scan of `burstLoop` with the counter left out and every iteration recorded. -/
def burstTrace (a : List Transaction) (W : Int) (j : Nat) : Nat → Nat → Nat → List ScanStep
  | 0, _, _ => []
  | fuel + 1, start, e =>
    if start < j then
      let p := fun k => decide (sub_ll (tx a k).unix_time (tx a start).unix_time ≤ W)
      let e1 := advanceEnd a W j start e
      ⟨start, e, e1, scanReads j p (j - e) e, scanSteps j p (j - e) e⟩ ::
        burstTrace a W j fuel (start + 1) e1
    else []

/-- The writes of the second pass of `build_card_blocks`, in order: an entry `(bi, s, i)`
stands for `starts[bi] = s; ends[bi] = i;`.  The loop of `fillBlocks` without the
arrays. -/
def fillLog (a : List Transaction) (n : Nat) : Nat → Nat → Nat → Nat → List (Nat × Nat × Nat)
  | 0, _, _, _ => []
  | fuel + 1, i, bi, s =>
    if i ≤ n then
      if i = n ∨ (tx a i).cc_num ≠ (tx a (i - 1)).cc_num then
        (bi, s, i) :: fillLog a n fuel (i + 1) (bi + 1) i
      else fillLog a n fuel (i + 1) bi s
    else []

/-- Number of positions `i` in `[1, n)` whose account differs from the previous one. -/
def accountChanges (a : List Transaction) (n : Nat) : Nat :=
  ((List.range' 1 (n - 1)).filter
    (fun i => decide ((tx a i).cc_num ≠ (tx a (i - 1)).cc_num))).length

/-! ## Sample inputs -/

/-- Sample input: three runs of accounts `1, 2, 1` (not sorted by account). -/
def sampleTx : List Transaction :=
  [⟨1, 0, "grocery", 0⟩, ⟨1, 100, "grocery", 0⟩, ⟨1, 150, "travel", 0⟩, ⟨1, 400, "travel", 0⟩,
   ⟨1, 450, "travel", 0⟩, ⟨1, 450, "gas", 0⟩, ⟨2, 450, "gas", 0⟩, ⟨1, 450, "gas", 0⟩]

/-- Sample input sorted by `(cc_num, unix_time)`: accounts `1` (five rows) and `2`. -/
def sortedTx : List Transaction :=
  [⟨1, 0, "gas", 0⟩, ⟨1, 100, "gas", 0⟩, ⟨1, 150, "food", 0⟩, ⟨1, 400, "gas", 0⟩,
   ⟨1, 450, "gas", 0⟩, ⟨2, 10, "travel", 0⟩, ⟨2, 20, "gas", 0⟩]

/-- Five transactions of one account at `0, 100, 150, 400, 450`, all of category `gas`. -/
def traceTx : List Transaction :=
  [⟨7, 0, "gas", 0⟩, ⟨7, 100, "gas", 0⟩, ⟨7, 150, "gas", 0⟩, ⟨7, 400, "gas", 0⟩,
   ⟨7, 450, "gas", 0⟩]

/-- Two transactions of one account with the same timestamp. -/
def tieTx : List Transaction := [⟨1, 5, "gas", 0⟩, ⟨1, 5, "gas", 0⟩]

/-- Six transactions of one account with categories
`grocery, grocery, travel, travel, travel, gas`. -/
def catsTx : List Transaction :=
  [⟨1, 0, "grocery", 0⟩, ⟨1, 100, "grocery", 0⟩, ⟨1, 150, "travel", 0⟩, ⟨1, 400, "travel", 0⟩,
   ⟨1, 450, "travel", 0⟩, ⟨1, 460, "gas", 0⟩]

/-! ## Loops -/

theorem scanWhile_ge (bound : Nat) (p : Nat → Bool) (fuel k : Nat) :
    k ≤ scanWhile bound p fuel k := by
  induction fuel generalizing k with
  | zero => simp [scanWhile]
  | succ f ih =>
    simp only [scanWhile]
    split
    · exact Nat.le_trans (Nat.le_succ k) (ih (k + 1))
    · exact Nat.le_refl k

theorem scanWhile_le (bound : Nat) (p : Nat → Bool) (fuel k : Nat) (h : k ≤ bound) :
    scanWhile bound p fuel k ≤ bound := by
  induction fuel generalizing k with
  | zero => simpa [scanWhile] using h
  | succ f ih =>
    simp only [scanWhile]
    split
    · rename_i hc
      exact ih (k + 1) hc.1
    · exact h

theorem scanWhile_all (bound : Nat) (p : Nat → Bool) (fuel k x : Nat)
    (h1 : k ≤ x) (h2 : x < scanWhile bound p fuel k) : x < bound ∧ p x = true := by
  induction fuel generalizing k with
  | zero => simp [scanWhile] at h2; omega
  | succ f ih =>
    simp only [scanWhile] at h2
    split at h2
    · rename_i hc
      by_cases hx : x = k
      · subst hx; exact hc
      · exact ih (k + 1) (by omega) h2
    · omega

/-- With fuel `bound - k` the loop leaves through its condition: the final index is `bound`
or fails the test. -/
theorem scanWhile_stop (bound : Nat) (p : Nat → Bool) (fuel k : Nat) (hf : bound - k ≤ fuel) :
    ¬ (scanWhile bound p fuel k < bound ∧ p (scanWhile bound p fuel k) = true) := by
  induction fuel generalizing k with
  | zero => simp [scanWhile]; omega
  | succ f ih =>
    simp only [scanWhile]
    split
    · exact ih (k + 1) (by omega)
    · assumption

/-- The final index of the loop is determined by its two exit properties. -/
theorem scanWhile_eq (bound : Nat) (p : Nat → Bool) (fuel k r : Nat) (hf : bound - k ≤ fuel)
    (hkr : k ≤ r) (hall : ∀ x, k ≤ x → x < r → x < bound ∧ p x = true)
    (hstop : ¬ (r < bound ∧ p r = true)) : scanWhile bound p fuel k = r := by
  have h1 := scanWhile_stop bound p fuel k hf
  have h2 := scanWhile_all bound p fuel k
  have h3 := scanWhile_ge bound p fuel k
  rcases Nat.lt_trichotomy (scanWhile bound p fuel k) r with h | h | h
  · exact absurd (hall _ h3 h) h1
  · exact h
  · exact absurd (h2 r hkr h) hstop

theorem wrap_ll_eq (z : Int) (h1 : -(2 : Int) ^ 63 ≤ z) (h2 : z < (2 : Int) ^ 63) :
    wrap_ll z = z := by
  unfold wrap_ll
  norm_num at h1 h2 ⊢
  omega

theorem sub_sz_eq (x y : Nat) (h1 : y ≤ x) (h2 : x < SIZE_MOD) : sub_sz x y = x - y := by
  unfold sub_sz
  unfold SIZE_MOD at *
  norm_num at h2 ⊢
  omega

theorem inc_sz_eq (x : Nat) (h : x + 1 < SIZE_MOD) : inc_sz x = x + 1 := by
  unfold inc_sz
  exact Nat.mod_eq_of_lt h

theorem add_sz_eq (x y : Nat) (h : x + y < SIZE_MOD) : add_sz x y = x + y := by
  unfold add_sz
  exact Nat.mod_eq_of_lt h

theorem inRun_iff (a : List Transaction) (s k : Nat) :
    inRun a s k = true ↔ ∀ m, s ≤ m → m ≤ k → (tx a m).cc_num = (tx a s).cc_num := by
  unfold inRun
  simp only [List.all_eq_true, List.mem_range, decide_eq_true_eq]
  constructor
  · intro h m h1 h2
    have := h (m - s) (by omega)
    rwa [Nat.add_sub_cancel' h1] at this
  · intro h d hd
    exact h (s + d) (by omega) (by omega)

/-- Filtering `0, ..., n-1` by membership of `[lo, hi)` leaves `hi - lo` indices. -/
theorem filter_range_interval (n lo hi : Nat) (h : hi ≤ n) (p : Nat → Bool)
    (hp : ∀ k, k < n → (p k = true ↔ lo ≤ k ∧ k < hi)) :
    (List.range n).filter p = List.range' lo (hi - lo) := by
  induction n generalizing hi with
  | zero =>
    have : hi = 0 := by omega
    subst this; simp
  | succ n ih =>
    rw [List.range_succ, List.filter_append]
    by_cases hh : hi ≤ n
    · rw [ih hi hh (fun k hk => hp k (by omega))]
      have : p n = false := by
        rw [Bool.eq_false_iff]; intro hc
        have := (hp n (by omega)).1 hc; omega
      simp [this]
    · have hhi : hi = n + 1 := by omega
      subst hhi
      by_cases hlo : lo ≤ n
      · have hpn : p n = true := (hp n (by omega)).2 ⟨hlo, by omega⟩
        rw [ih n (Nat.le_refl n) (fun k hk => by
          rw [hp k (by omega)]; constructor
          · intro h; exact ⟨h.1, hk⟩
          · intro h; exact ⟨h.1, by omega⟩)]
        simp only [List.filter_cons, hpn, if_true, List.filter_nil]
        have : n + 1 - lo = (n - lo) + 1 := by omega
        rw [this, List.range'_concat]
        congr 2
        simp; omega
      · have hpn : p n = false := by
          rw [Bool.eq_false_iff]; intro hc
          have := (hp n (by omega)).1 hc; omega
        rw [ih n (Nat.le_refl n) (fun k hk => by
          rw [hp k (by omega)]; constructor
          · intro h; exact ⟨h.1, hk⟩
          · intro h; exact ⟨h.1, by omega⟩)]
        simp [hpn]
        have h1 : n - lo = 0 := by omega
        have h2 : n + 1 - lo = 0 := by omega
        rw [h1, h2]

theorem blockEnd_gt (a : List Transaction) (n i : Nat) (h : i < n) :
    i < blockEnd a n (tx a i).cc_num i := by
  unfold blockEnd
  obtain ⟨f, hf⟩ : ∃ f, n - i = f + 1 := ⟨n - i - 1, by omega⟩
  rw [hf]
  simp only [scanWhile, h, decide_True, and_self, if_true]
  exact scanWhile_ge _ _ _ _

theorem blockEnd_le (a : List Transaction) (n i : Nat) (card : Int) (h : i ≤ n) :
    blockEnd a n card i ≤ n :=
  scanWhile_le _ _ _ _ h

theorem blockEnd_uniform (a : List Transaction) (n i k : Nat) (card : Int)
    (h1 : i ≤ k) (h2 : k < blockEnd a n card i) : (tx a k).cc_num = card := by
  have := (scanWhile_all _ _ _ _ k h1 h2).2
  simpa using this

/-- The scan for the end of a block leaves through its condition. -/
theorem blockEnd_stop (a : List Transaction) (n i : Nat) (card : Int)
    (h : blockEnd a n card i < n) : (tx a (blockEnd a n card i)).cc_num ≠ card := by
  have := scanWhile_stop n (fun k => decide ((tx a k).cc_num = card)) (n - i) i (Nat.le_refl _)
  intro hc
  apply this
  exact ⟨h, by simpa using hc⟩


theorem isBlock_blockEnd (a : List Transaction) (n i : Nat) (h : i < n) :
    IsBlock a n i (blockEnd a n (tx a i).cc_num i) :=
  ⟨blockEnd_le a n i _ (Nat.le_of_lt h), fun k h1 h2 => blockEnd_uniform a n i k _ h1 h2,
   fun h2 => blockEnd_stop a n i _ h2⟩

/-- In a sorted array without overflow, the window of `start` inside its block `[i, j)` is
the interval `[start, e1)` where `e1` is the index at which the inner loop stops. -/
theorem windowCount_eq (a : List Transaction) (W : Int) (i j start e1 : Nat)
    (hb : IsBlock a a.length i j) (hs : SortedTx a)
    (h1 : i ≤ start) (hsj : start < j) (h2 : start ≤ e1) (h3 : e1 ≤ j)
    (hin : ∀ k, start ≤ k → k < e1 → (tx a k).unix_time - (tx a start).unix_time ≤ W)
    (hout : e1 < j → ¬ ((tx a e1).unix_time - (tx a start).unix_time ≤ W)) :
    windowCount a a.length W start = e1 - start := by
  unfold windowCount
  rw [filter_range_interval a.length start e1 (Nat.le_trans h3 hb.le), List.length_range']
  intro k hk
  simp only [Bool.and_eq_true, decide_eq_true_eq, inRun_iff]
  constructor
  · rintro ⟨⟨hsk, hrun⟩, hd⟩
    refine ⟨hsk, ?_⟩
    by_contra hc
    have hkj : k < j := by
      by_contra hjk
      have hjn : j < a.length := by omega
      have := hrun j (by omega) (by omega)
      rw [hb.uniform start h1 (by omega)] at this
      exact hb.stop hjn this
    have he1 : e1 < j := by omega
    have hcc : (tx a e1).cc_num = (tx a k).cc_num := by
      rw [hb.uniform e1 (by omega) he1, hb.uniform k (by omega) hkj]
    have : (tx a e1).unix_time ≤ (tx a k).unix_time := by
      rcases Nat.lt_or_ge e1 k with h | h
      · exact (hs e1 k h hk).2 hcc
      · have : e1 = k := by omega
        rw [this]
    have := hout he1
    omega
  · rintro ⟨hsk, hke⟩
    refine ⟨⟨hsk, ?_⟩, hin k hsk hke⟩
    intro m hm1 hm2
    rw [hb.uniform m (by omega) (by omega), hb.uniform start h1 (by omega)]

/-- The two-pointer scan of a block counts the start positions whose window holds at
least `T` elements. -/
theorem burstLoop_eq (a : List Transaction) (W : Int) (T : Nat) (i j : Nat)
    (hb : IsBlock a a.length i j) (hs : SortedTx a) (ho : NoOverflow a) (hW : 0 ≤ W)
    (hn : a.length < SIZE_MOD) (fuel start e cnt : Nat)
    (h1 : i ≤ start) (h2 : start ≤ e) (h3 : e ≤ j) (hf : j - start ≤ fuel)
    (hin : ∀ k, start ≤ k → k < e → (tx a k).unix_time - (tx a start).unix_time ≤ W)
    (hc : cnt + (j - start) < SIZE_MOD) :
    burstLoop a W T j fuel start e cnt =
      cnt + ((List.range' start (j - start)).filter
        (fun s => decide (T ≤ windowCount a a.length W s))).length := by
  induction fuel generalizing start e cnt with
  | zero =>
    have : j - start = 0 := by omega
    simp [burstLoop, this]
  | succ f ih =>
    simp only [burstLoop]
    by_cases hsj : start < j
    · rw [if_pos hsj]
      have hjn := hb.le
      set e1 := advanceEnd a W j start e with he1
      have hp : ∀ k, k < a.length →
          (sub_ll (tx a k).unix_time (tx a start).unix_time ≤ W ↔
            (tx a k).unix_time - (tx a start).unix_time ≤ W) := by
        intro k hk
        unfold sub_ll
        rw [wrap_ll_eq _ (ho k start hk (by omega)).1 (ho k start hk (by omega)).2]
      have hge : e ≤ e1 := scanWhile_ge _ _ _ _
      have hle : e1 ≤ j := scanWhile_le _ _ _ _ h3
      have hall := scanWhile_all j
        (fun k => decide (sub_ll (tx a k).unix_time (tx a start).unix_time ≤ W)) (j - e) e
      have hstop := scanWhile_stop j
        (fun k => decide (sub_ll (tx a k).unix_time (tx a start).unix_time ≤ W)) (j - e) e
        (Nat.le_refl _)
      have hin1 : ∀ k, start ≤ k → k < e1 →
          (tx a k).unix_time - (tx a start).unix_time ≤ W := by
        intro k hk1 hk2
        rcases Nat.lt_or_ge k e with h | h
        · exact hin k hk1 h
        · have := (hall k h hk2).2
          simp only [decide_eq_true_eq] at this
          exact (hp k (by omega)).1 this
      have hout : e1 < j → ¬ ((tx a e1).unix_time - (tx a start).unix_time ≤ W) := by
        intro h hcontra
        apply hstop
        refine ⟨h, ?_⟩
        simp only [decide_eq_true_eq]
        exact (hp e1 (by omega)).2 hcontra
      have hgt : start < e1 := by
        by_contra hcontra
        have h' : e1 = start := by omega
        apply hout (by omega)
        rw [h']; simpa using hW
      have hwc := windowCount_eq a W i j start e1 hb hs h1 hsj (by omega) hle hin1 hout
      have hsub : sub_sz e1 start = e1 - start := sub_sz_eq _ _ (by omega) (by omega)
      have hrange : List.range' start (j - start) =
          start :: List.range' (start + 1) (j - (start + 1)) := by
        have : j - start = (j - (start + 1)) + 1 := by omega
        rw [this, List.range'_succ]
      have hin2 : ∀ k, start + 1 ≤ k → k < e1 →
          (tx a k).unix_time - (tx a (start + 1)).unix_time ≤ W := by
        intro k hk1 hk2
        have hcc : (tx a start).cc_num = (tx a (start + 1)).cc_num := by
          rw [hb.uniform start h1 hsj, hb.uniform (start + 1) (by omega) (by omega)]
        have := (hs start (start + 1) (by omega) (by omega)).2 hcc
        have := hin1 k (by omega) hk2
        omega
      rw [hrange, List.filter_cons, hsub, hwc]
      by_cases hT : T ≤ e1 - start
      · simp only [hT, if_true, decide_True]
        rw [inc_sz_eq cnt (by omega)]
        rw [ih (start + 1) e1 (cnt + 1) (by omega) hgt hle (by omega) hin2 (by omega)]
        simp only [List.length_cons]
        omega
      · simp only [hT, if_false, decide_False]
        rw [ih (start + 1) e1 cnt (by omega) hgt hle (by omega) hin2 (by omega)]
        simp
    · rw [if_neg hsj]
      have : j - start = 0 := by omega
      simp [this]


/-- The serial outer loop, started at a position `i`, adds to the counter the number of
qualifying start positions in `[i, n)`. -/
theorem countBurstLoop_eq (a : List Transaction) (W : Int) (T : Nat)
    (hs : SortedTx a) (ho : NoOverflow a) (hW : 0 ≤ W) (hn : a.length < SIZE_MOD)
    (fuel i susp : Nat) (hi : i ≤ a.length) (hf : a.length - i ≤ fuel)
    (hc : susp + (a.length - i) < SIZE_MOD) :
    countBurstLoop a a.length W T fuel i susp =
      susp + ((List.range' i (a.length - i)).filter
        (fun s => decide (T ≤ windowCount a a.length W s))).length := by
  induction fuel generalizing i susp with
  | zero =>
    have : a.length - i = 0 := by omega
    simp [countBurstLoop, this]
  | succ f ih =>
    simp only [countBurstLoop]
    by_cases hin : i < a.length
    · rw [if_pos hin]
      have hb := isBlock_blockEnd a a.length i hin
      have hgt := blockEnd_gt a a.length i hin
      set j := blockEnd a a.length (tx a i).cc_num i with hj
      have hjn : j ≤ a.length := hb.le
      have h1 : burstBlock a W T i j susp = susp + ((List.range' i (j - i)).filter
          (fun s => decide (T ≤ windowCount a a.length W s))).length := by
        unfold burstBlock
        exact burstLoop_eq a W T i j hb hs ho hW hn (j - i) i i susp (Nat.le_refl _)
          (Nat.le_refl _) (by omega) (Nat.le_refl _) (fun k h1 h2 => by omega) (by omega)
      have hlen := List.length_filter_le
        (fun s => decide (T ≤ windowCount a a.length W s)) (List.range' i (j - i))
      rw [List.length_range'] at hlen
      rw [h1, ih j _ hjn (by omega) (by omega)]
      have hsplit : List.range' i (a.length - i) =
          List.range' i (j - i) ++ List.range' j (a.length - j) := by
        have h2 := List.range'_append_1 i (j - i) (a.length - j)
        have h3 : i + (j - i) = j := by omega
        have h4 : a.length - j + (j - i) = a.length - i := by omega
        rw [h3, h4] at h2
        exact h2.symm
      rw [hsplit, List.filter_append, List.length_append]
      omega
    · rw [if_neg hin]
      have : a.length - i = 0 := by omega
      simp [this]

/-- On a sorted array the two-pointer scan equals the naive count, window by window. -/
theorem countBurst_scan_core (a : List Transaction) (W : Int) (T : Nat)
    (hs : SortedTx a) (ho : NoOverflow a) (hW : 0 ≤ W) (hn : a.length < SIZE_MOD) :
    countBurst a a.length W T = naiveBurst a a.length W T := by
  unfold countBurst naiveBurst
  rw [countBurstLoop_eq a W T hs ho hW hn a.length 0 0 (Nat.zero_le _) (by omega) (by omega)]
  simp [List.range_eq_range']

/-! ## The block partitioner -/

theorem fillBlocks_eq (a : List Transaction) (n : Nat) (fuel i s : Nat)
    (dS rS dE rE : List Nat) (hd : dE.length = dS.length)
    (hS : (segs a n fuel i s).length ≤ rS.length)
    (hE : (segs a n fuel i s).length ≤ rE.length) :
    fillBlocks a n fuel i dS.length s (dS ++ rS) (dE ++ rE) =
      (dS ++ (segs a n fuel i s).map Prod.fst ++ rS.drop (segs a n fuel i s).length,
       dE ++ (segs a n fuel i s).map Prod.snd ++ rE.drop (segs a n fuel i s).length) := by
  induction fuel generalizing i s dS rS dE rE with
  | zero => simp [fillBlocks, segs]
  | succ f ih =>
    simp only [fillBlocks, segs] at hS hE ⊢
    by_cases hin : i ≤ n
    · simp only [hin, if_true] at hS hE ⊢
      by_cases hb : i = n ∨ (tx a i).cc_num ≠ (tx a (i - 1)).cc_num
      · simp only [hb, if_true] at hS hE ⊢
        simp only [List.length_cons] at hS hE
        cases rS with
        | nil => simp at hS
        | cons r1 rS1 =>
        cases rE with
        | nil => simp at hE
        | cons r2 rE1 =>
        simp only [List.length_cons] at hS hE
        have e1 : (dS ++ r1 :: rS1).set dS.length s = (dS ++ [s]) ++ rS1 := by
          rw [List.set_append_right _ _ (Nat.le_refl _)]; simp
        have e2 : (dE ++ r2 :: rE1).set dS.length i = (dE ++ [i]) ++ rE1 := by
          rw [← hd, List.set_append_right _ _ (Nat.le_refl _)]; simp
        have e3 : dS.length + 1 = (dS ++ [s]).length := by simp
        rw [e1, e2, e3, ih (i + 1) i (dS ++ [s]) rS1 (dE ++ [i]) rE1 (by simp [hd])
          (by omega) (by omega)]
        simp
      · simp only [hb, if_false] at hS hE ⊢
        exact ih (i + 1) s dS rS dE rE hd hS hE
    · simp [hin]

theorem countBlocks_segs (a : List Transaction) (n : Nat) (fuel i nb s : Nat)
    (hi : i + fuel = n) (hnb : nb + fuel < SIZE_MOD) :
    countBlocks a n fuel i nb + 1 = nb + (segs a n (fuel + 1) i s).length := by
  induction fuel generalizing i nb s with
  | zero =>
    have : i = n := by omega
    subst this
    simp [countBlocks, segs]
  | succ f ih =>
    have hin : i < n := by omega
    have hne : i ≠ n := by omega
    rw [countBlocks, segs]
    rw [if_pos hin, if_pos (Nat.le_of_lt hin)]
    by_cases hb : (tx a i).cc_num ≠ (tx a (i - 1)).cc_num
    · rw [if_pos hb, if_pos (Or.inr hb)]
      rw [inc_sz, Nat.mod_eq_of_lt (by omega), ih (i + 1) (nb + 1) i (by omega) (by omega)]
      simp only [List.length_cons]; omega
    · rw [if_neg hb, if_neg (by rintro (h | h); exacts [hne h, hb h])]
      exact ih (i + 1) nb s (by omega) (by omega)

/-- The arrays written by `build_card_blocks` are the two projections of `segs`. -/
theorem build_card_blocks_eq (a : List Transaction) (n : Nat) (h1 : 1 ≤ n)
    (hn : n < SIZE_MOD) :
    build_card_blocks a n =
      ((segs a n n 1 0).map Prod.fst, (segs a n n 1 0).map Prod.snd,
        (segs a n n 1 0).length) := by
  obtain ⟨m, rfl⟩ : ∃ m, n = m + 1 := ⟨n - 1, by omega⟩
  have hc := countBlocks_segs a (m + 1) m 1 1 0 (by omega) (by omega)
  have hnb : countBlocks a (m + 1) m 1 1 = (segs a (m + 1) (m + 1) 1 0).length := by omega
  unfold build_card_blocks
  simp only [Nat.add_one_ne_zero, if_false, Nat.add_sub_cancel]
  rw [hnb]
  have := fillBlocks_eq a (m + 1) (m + 1) 1 0 []
    (List.replicate (segs a (m + 1) (m + 1) 1 0).length 0) []
    (List.replicate (segs a (m + 1) (m + 1) 1 0).length 0) rfl (by simp) (by simp)
  simp only [List.nil_append, List.length_nil] at this
  rw [this]
  simp


theorem segs_scan (a : List Transaction) (n : Nat) (fuel i s : Nat) (hsi : s < i)
    (hi : i + fuel = n)
    (hu : ∀ k, s ≤ k → k < i → (tx a k).cc_num = (tx a s).cc_num) :
    segs a n (fuel + 1) i s =
      (s, scanWhile n (fun k => decide ((tx a k).cc_num = (tx a s).cc_num)) fuel i) ::
        blocksAt a n (scanWhile n (fun k => decide ((tx a k).cc_num = (tx a s).cc_num)) fuel i) := by
  induction fuel generalizing i with
  | zero =>
    have : i = n := by omega
    subst this
    simp [segs, scanWhile, blocksAt]
  | succ f ih =>
    have hin : i < n := by omega
    have hne : i ≠ n := by omega
    have hprev : (tx a (i - 1)).cc_num = (tx a s).cc_num := hu (i - 1) (by omega) (by omega)
    rw [segs, if_pos (Nat.le_of_lt hin), scanWhile]
    by_cases hp : (tx a i).cc_num = (tx a s).cc_num
    · rw [if_neg (by rintro (h | h); exacts [hne h, h (by rw [hp, hprev])])]
      rw [if_pos ⟨hin, by simpa using hp⟩]
      apply ih (i + 1) (by omega) (by omega)
      intro k h1 h2
      by_cases hk : k = i
      · rw [hk]; exact hp
      · exact hu k h1 (by omega)
    · rw [if_pos (Or.inr (by rw [hprev]; exact hp))]
      rw [if_neg (by simp [hp])]
      have : blocksAt a n i = segs a n (f + 1) (i + 1) i := by
        unfold blocksAt
        rw [if_pos hin]
        congr 1; omega
      rw [this]

/-- The list of blocks from a block start `s < n`: the block of `s` as the serial scan
finds it, followed by the blocks from its end. -/
theorem blocksAt_cons (a : List Transaction) (n s : Nat) (h : s < n) :
    blocksAt a n s =
      (s, blockEnd a n (tx a s).cc_num s) :: blocksAt a n (blockEnd a n (tx a s).cc_num s) := by
  obtain ⟨f, hf⟩ : ∃ f, n - s = f + 1 := ⟨n - s - 1, by omega⟩
  have hb : blockEnd a n (tx a s).cc_num s =
      scanWhile n (fun k => decide ((tx a k).cc_num = (tx a s).cc_num)) f (s + 1) := by
    unfold blockEnd
    rw [hf, scanWhile, if_pos ⟨h, by simp⟩]
  rw [hb]
  unfold blocksAt
  rw [if_pos h, hf]
  apply segs_scan a n f (s + 1) s (by omega) (by omega)
  intro k h1 h2
  have : k = s := by omega
  rw [this]

theorem blocksAt_of_ge (a : List Transaction) (n s : Nat) (h : n ≤ s) : blocksAt a n s = [] := by
  unfold blocksAt
  rw [if_neg (by omega)]

theorem segs_eq_blocksAt (a : List Transaction) (n : Nat) (h : 1 ≤ n) :
    segs a n n 1 0 = blocksAt a n 0 := by
  unfold blocksAt
  rw [if_pos (by omega)]
  rfl

/-- Shape of the block list from a position `s`: the first block starts at `s`, every block
is non-empty, uniform and closed on the right, consecutive blocks touch, and the last one
ends at `n`. -/
theorem blocksAt_props (a : List Transaction) (n : Nat) (fuel s : Nat) (hf : n - s ≤ fuel)
    (hs : s ≤ n) :
    (s < n → 0 < (blocksAt a n s).length ∧ ((blocksAt a n s).getD 0 (0, 0)).1 = s) ∧
    (∀ k, k < (blocksAt a n s).length →
      s ≤ ((blocksAt a n s).getD k (0, 0)).1 ∧
      ((blocksAt a n s).getD k (0, 0)).1 < ((blocksAt a n s).getD k (0, 0)).2 ∧
      IsBlock a n ((blocksAt a n s).getD k (0, 0)).1 ((blocksAt a n s).getD k (0, 0)).2) ∧
    (∀ k, k + 1 < (blocksAt a n s).length →
      ((blocksAt a n s).getD k (0, 0)).2 = ((blocksAt a n s).getD (k + 1) (0, 0)).1) ∧
    (0 < (blocksAt a n s).length →
      ((blocksAt a n s).getD ((blocksAt a n s).length - 1) (0, 0)).2 = n) := by
  induction fuel generalizing s with
  | zero =>
    rw [blocksAt_of_ge a n s (by omega)]
    refine ⟨fun h => by omega, fun k hk => by simp at hk, fun k hk => by simp at hk,
      fun h => by simp at h⟩
  | succ f ih =>
    by_cases hsn : s < n
    · have hgt := blockEnd_gt a n s hsn
      have hb := isBlock_blockEnd a n s hsn
      rw [blocksAt_cons a n s hsn]
      obtain ⟨p1, p2, p3, p4⟩ := ih (blockEnd a n (tx a s).cc_num s) (by omega) hb.le
      refine ⟨fun _ => by simp, ?_, ?_, ?_⟩
      · intro k hk
        cases k with
        | zero => exact ⟨by simp, by simpa using hgt, by simpa using hb⟩
        | succ k =>
          simp only [List.length_cons, Nat.add_lt_add_iff_right] at hk
          simp only [List.getD_cons_succ]
          have := p2 k hk
          exact ⟨by omega, this.2.1, this.2.2⟩
      · intro k hk
        simp only [List.length_cons, Nat.add_lt_add_iff_right] at hk
        cases k with
        | zero =>
          simp only [List.getD_cons_succ, List.getD_cons_zero]
          have hlt : blockEnd a n (tx a s).cc_num s < n := by
            by_contra hc
            rw [blocksAt_of_ge a n _ (by omega)] at hk
            simp at hk
          exact (p1 hlt).2.symm
        | succ k =>
          simp only [List.getD_cons_succ]
          exact p3 k hk
      · intro _
        simp only [List.length_cons, Nat.add_sub_cancel]
        by_cases hlt : blockEnd a n (tx a s).cc_num s < n
        · have hpos := (p1 hlt).1
          obtain ⟨m, hm⟩ : ∃ m, (blocksAt a n (blockEnd a n (tx a s).cc_num s)).length = m + 1 :=
            ⟨_, (Nat.succ_pred_eq_of_pos hpos).symm⟩
          have := p4 hpos
          rw [hm] at this ⊢
          simpa using this
        · rw [blocksAt_of_ge a n _ (by omega)]
          simp only [List.length_nil, List.getD_cons_zero]
          have := hb.le
          omega
    · rw [blocksAt_of_ge a n s (by omega)]
      refine ⟨fun h => by omega, fun k hk => by simp at hk, fun k hk => by simp at hk,
        fun h => by simp at h⟩


/-- C2: for an array of length `n >= 1` (a `size_t`), `build_card_blocks` returns `nb >= 1`
ranges `[starts[k], ends[k])` with `starts[0] = 0`, `ends[nb-1] = n`,
`ends[k] = starts[k+1]`, `starts[k] < ends[k]`; every range is uniform in `cc_num`, and is
maximal on the left and on the right. -/
theorem build_card_blocks_partition (a : List Transaction) (h1 : 1 ≤ a.length)
    (hn : a.length < SIZE_MOD) :
    (build_card_blocks a a.length).1.length = (build_card_blocks a a.length).2.2 ∧
    (build_card_blocks a a.length).2.1.length = (build_card_blocks a a.length).2.2 ∧
    1 ≤ (build_card_blocks a a.length).2.2 ∧
    (build_card_blocks a a.length).1.getD 0 0 = 0 ∧
    (build_card_blocks a a.length).2.1.getD ((build_card_blocks a a.length).2.2 - 1) 0 =
      a.length ∧
    (∀ k, k + 1 < (build_card_blocks a a.length).2.2 →
      (build_card_blocks a a.length).2.1.getD k 0 =
        (build_card_blocks a a.length).1.getD (k + 1) 0) ∧
    (∀ k, k < (build_card_blocks a a.length).2.2 →
      (build_card_blocks a a.length).1.getD k 0 <
        (build_card_blocks a a.length).2.1.getD k 0) ∧
    (∀ k, k < (build_card_blocks a a.length).2.2 →
      ∀ p, (build_card_blocks a a.length).1.getD k 0 ≤ p →
        p < (build_card_blocks a a.length).2.1.getD k 0 →
        (tx a p).cc_num = (tx a ((build_card_blocks a a.length).1.getD k 0)).cc_num) ∧
    (∀ k, k < (build_card_blocks a a.length).2.2 →
      0 < (build_card_blocks a a.length).1.getD k 0 →
      (tx a ((build_card_blocks a a.length).1.getD k 0 - 1)).cc_num ≠
        (tx a ((build_card_blocks a a.length).1.getD k 0)).cc_num) ∧
    (∀ k, k < (build_card_blocks a a.length).2.2 →
      (build_card_blocks a a.length).2.1.getD k 0 < a.length →
      (tx a ((build_card_blocks a a.length).2.1.getD k 0)).cc_num ≠
        (tx a ((build_card_blocks a a.length).2.1.getD k 0 - 1)).cc_num) := by
  rw [build_card_blocks_eq a a.length h1 hn, segs_eq_blocksAt a a.length h1]
  obtain ⟨p1, p2, p3, p4⟩ := blocksAt_props a a.length a.length 0 (by omega) (Nat.zero_le _)
  have hS : ∀ k, ((blocksAt a a.length 0).map Prod.fst).getD k 0 =
      ((blocksAt a a.length 0).getD k (0, 0)).1 :=
    fun k => List.getD_map (blocksAt a a.length 0) (0, 0) Prod.fst
  have hE : ∀ k, ((blocksAt a a.length 0).map Prod.snd).getD k 0 =
      ((blocksAt a a.length 0).getD k (0, 0)).2 :=
    fun k => List.getD_map (blocksAt a a.length 0) (0, 0) Prod.snd
  simp only [hS, hE, List.length_map]
  have hpos := (p1 (by omega)).1
  refine ⟨trivial, trivial, hpos, (p1 (by omega)).2, p4 hpos, p3, fun k hk => (p2 k hk).2.1,
    fun k hk p hp1 hp2 => (p2 k hk).2.2.uniform p hp1 hp2, ?_, ?_⟩
  · intro k hk h0
    cases k with
    | zero => rw [(p1 (by omega)).2] at h0; omega
    | succ k =>
      have hprev := p2 k (by omega)
      have hcur := p2 (k + 1) hk
      rw [← p3 k hk] at hcur ⊢
      have hlt : ((blocksAt a a.length 0).getD k (0, 0)).2 < a.length := by
        have := hcur.2.2.le; omega
      have := hprev.2.2.stop hlt
      rw [hprev.2.2.uniform (((blocksAt a a.length 0).getD k (0, 0)).2 - 1) (by omega)
        (by omega)]
      exact Ne.symm this
  · intro k hk hlt
    have hcur := p2 k hk
    rw [hcur.2.2.uniform (((blocksAt a a.length 0).getD k (0, 0)).2 - 1) (by omega)
      (by omega)]
    exact hcur.2.2.stop hlt

theorem build_card_blocks_partition_witness :
    (build_card_blocks sampleTx sampleTx.length).2.1.getD
      ((build_card_blocks sampleTx sampleTx.length).2.2 - 1) 0 = 8 :=
  (build_card_blocks_partition sampleTx (by decide) (by decide)).2.2.2.2.1

/-! ## Serial and parallel burst counts -/

theorem add_sz_lt (x y : Nat) : add_sz x y < SIZE_MOD :=
  Nat.mod_lt _ (by unfold SIZE_MOD; positivity)

theorem inc_sz_lt (x : Nat) : inc_sz x < SIZE_MOD :=
  Nat.mod_lt _ (by unfold SIZE_MOD; positivity)

theorem burstLoop_lt (a : List Transaction) (W : Int) (T j fuel start e cnt : Nat)
    (h : cnt < SIZE_MOD) : burstLoop a W T j fuel start e cnt < SIZE_MOD := by
  induction fuel generalizing start e cnt with
  | zero => simpa [burstLoop] using h
  | succ f ih =>
    simp only [burstLoop]
    split
    · apply ih
      split
      · exact inc_sz_lt cnt
      · exact h
    · exact h

/-- The scan of a block started with counter value `cnt` adds (modulo `2^64`) what the same
scan produces from `0`. -/
theorem burstLoop_acc (a : List Transaction) (W : Int) (T j fuel start e cnt : Nat)
    (h : cnt < SIZE_MOD) :
    burstLoop a W T j fuel start e cnt = add_sz cnt (burstLoop a W T j fuel start e 0) := by
  induction fuel generalizing start e cnt with
  | zero =>
    simp only [burstLoop, add_sz, Nat.add_zero]
    exact (Nat.mod_eq_of_lt h).symm
  | succ f ih =>
    simp only [burstLoop]
    by_cases hs : start < j
    · simp only [hs, if_true]
      by_cases hT : T ≤ sub_sz (advanceEnd a W j start e) start
      · simp only [hT, if_true]
        rw [ih _ _ (inc_sz cnt) (inc_sz_lt cnt), ih _ _ (inc_sz 0) (inc_sz_lt 0)]
        generalize burstLoop a W T j f (start + 1) (advanceEnd a W j start e) 0 = b
        unfold add_sz inc_sz SIZE_MOD at *
        omega
      · simp only [hT, if_false]
        exact ih _ _ cnt h
    · simp only [hs, if_false, add_sz, Nat.add_zero]
      exact (Nat.mod_eq_of_lt h).symm

theorem burstBlock_acc (a : List Transaction) (W : Int) (T i j cnt : Nat)
    (h : cnt < SIZE_MOD) :
    burstBlock a W T i j cnt = add_sz cnt (burstBlock a W T i j 0) :=
  burstLoop_acc a W T j (j - i) i i cnt h

/-- The serial outer loop visits the blocks of `blocksAt` in order. -/
theorem countBurstLoop_blocks (a : List Transaction) (n : Nat) (W : Int) (T : Nat)
    (fuel i susp : Nat) (hf : n - i ≤ fuel) :
    countBurstLoop a n W T fuel i susp =
      (blocksAt a n i).foldl (fun c b => burstBlock a W T b.1 b.2 c) susp := by
  induction fuel generalizing i susp with
  | zero =>
    rw [blocksAt_of_ge a n i (by omega)]
    simp [countBurstLoop]
  | succ f ih =>
    simp only [countBurstLoop]
    by_cases hin : i < n
    · have hgt := blockEnd_gt a n i hin
      rw [if_pos hin, blocksAt_cons a n i hin, List.foldl_cons]
      exact ih _ _ (by omega)
    · rw [if_neg hin, blocksAt_of_ge a n i (by omega)]
      simp

/-- A loop over the indices `0, ..., L.length - 1` that reads `L[bi]` is a fold over `L`. -/
theorem foldl_range_getD {β : Type} (L : List β) (d : β) (g : Nat → β → Nat) (s0 : Nat) :
    (List.range L.length).foldl (fun s bi => g s (L.getD bi d)) s0 = L.foldl g s0 := by
  induction L using List.reverseRecOn with
  | nil => simp
  | append_singleton L x ih =>
    rw [List.length_append, List.length_singleton, List.range_succ, List.foldl_append,
      List.foldl_append]
    have : (List.range L.length).foldl (fun s bi => g s ((L ++ [x]).getD bi d)) s0 =
        (List.range L.length).foldl (fun s bi => g s (L.getD bi d)) s0 := by
      apply List.foldl_ext
      intro s bi hbi
      rw [List.getD_append L [x] d bi (List.mem_range.1 hbi)]
    rw [this, ih]
    simp [List.getD_append_right]

theorem foldl_acc {β : Type} (L : List β) (g : Nat → β → Nat) (c : β → Nat)
    (hg : ∀ s b, s < SIZE_MOD → g s b = add_sz s (c b)) (s0 : Nat) (h0 : s0 < SIZE_MOD) :
    L.foldl g s0 = L.foldl (fun s b => add_sz s (c b)) s0 := by
  induction L generalizing s0 with
  | nil => rfl
  | cons x L ih =>
    rw [List.foldl_cons, List.foldl_cons, hg s0 x h0]
    exact ih _ (add_sz_lt _ _)

theorem countBurst_parallel_blocks (a : List Transaction) (n : Nat) (W : Int) (T : Nat)
    (L : List (Nat × Nat)) :
    countBurst_parallel a n W T (L.map Prod.fst) (L.map Prod.snd) L.length =
      L.foldl (fun s b => add_sz s (burstBlock a W T b.1 b.2 0)) 0 := by
  unfold countBurst_parallel
  rw [← foldl_range_getD L (0, 0) (fun s b => add_sz s (burstBlock a W T b.1 b.2 0)) 0]
  apply List.foldl_ext
  intro s bi _
  unfold burstStep burstLocal
  have hS : (L.map Prod.fst).getD bi 0 = (L.getD bi (0, 0)).1 := List.getD_map L (0, 0) Prod.fst
  have hE : (L.map Prod.snd).getD bi 0 = (L.getD bi (0, 0)).2 := List.getD_map L (0, 0) Prod.snd
  rw [hS, hE]

theorem SIZE_MOD_pos : 0 < SIZE_MOD := by unfold SIZE_MOD; positivity

/-- C4: for every array (sorted or not), window and threshold, the serial `countBurst`
equals `countBurst_parallel` run over the blocks of `build_card_blocks`. -/
theorem countBurst_eq_parallel (a : List Transaction) (W : Int) (T : Nat)
    (hn : a.length < SIZE_MOD) :
    countBurst a a.length W T =
      countBurst_parallel a a.length W T (build_card_blocks a a.length).1
        (build_card_blocks a a.length).2.1 (build_card_blocks a a.length).2.2 := by
  by_cases h0 : a.length = 0
  · rw [h0]; rfl
  · rw [build_card_blocks_eq a a.length (by omega) hn, segs_eq_blocksAt a a.length (by omega)]
    rw [countBurst_parallel_blocks]
    unfold countBurst
    rw [countBurstLoop_blocks a a.length W T a.length 0 0 (by omega)]
    exact foldl_acc _ _ _ (fun s b hs => burstBlock_acc a W T b.1 b.2 s hs) 0 SIZE_MOD_pos

theorem countBurst_eq_parallel_witness :
    countBurst sampleTx 8 300 2 =
      countBurst_parallel sampleTx 8 300 2 (build_card_blocks sampleTx 8).1
        (build_card_blocks sampleTx 8).2.1 (build_card_blocks sampleTx 8).2.2 :=
  countBurst_eq_parallel sampleTx 300 2 (by decide)

/-! ## Burst counts: the claims -/

/-- C1: on an array sorted by `(cc_num, unix_time)`, for a window `W >= 0` and any threshold
`T`, with timestamp differences inside the `long long` range and `n` a `size_t`, the serial
`countBurst` returns the number of positions `s < n` whose account block holds at least `T`
elements `k >= s` with `a[k].unix_time - a[s].unix_time <= W`. -/
theorem countBurst_eq_naive (a : List Transaction) (W : Int) (T : Nat)
    (hs : SortedTx a) (ho : NoOverflow a) (hW : 0 ≤ W) (hn : a.length < SIZE_MOD) :
    countBurst a a.length W T = naiveBurst a a.length W T :=
  countBurst_scan_core a W T hs ho hW hn

theorem countBurst_eq_naive_witness :
    countBurst sortedTx sortedTx.length 300 3 = naiveBurst sortedTx sortedTx.length 300 3 :=
  countBurst_eq_naive sortedTx 300 3 (by decide) (by decide) (by decide) (by decide)

theorem sub_ll_eq (a : List Transaction) (ho : NoOverflow a) (p q : Nat) (hp : p < a.length)
    (hq : q < a.length) :
    sub_ll (tx a p).unix_time (tx a q).unix_time = (tx a p).unix_time - (tx a q).unix_time := by
  unfold sub_ll
  exact wrap_ll_eq _ (ho p q hp hq).1 (ho p q hp hq).2

/-- Block scan when every element of the block is within `W` of every earlier one: the
inner loop always runs to the end of the block. -/
theorem burstLoop_cluster (a : List Transaction) (W : Int) (T i j : Nat) (hT : 1 ≤ T)
    (hj : j ≤ a.length) (hn : a.length < SIZE_MOD)
    (hpair : ∀ s k, i ≤ s → s ≤ k → k < j →
      sub_ll (tx a k).unix_time (tx a s).unix_time ≤ W)
    (fuel start e cnt : Nat) (h1 : i ≤ start) (h2 : start ≤ e) (h3 : e ≤ j)
    (hf : j - start ≤ fuel) (hc : cnt + (j - start) < SIZE_MOD) :
    burstLoop a W T j fuel start e cnt =
      cnt + (if T ≤ j - start then j - start - T + 1 else 0) := by
  induction fuel generalizing start e cnt with
  | zero =>
    have : ¬ T ≤ j - start := by omega
    simp [burstLoop, this]
  | succ f ih =>
    simp only [burstLoop]
    by_cases hsj : start < j
    · rw [if_pos hsj]
      have he1 : advanceEnd a W j start e = j := by
        unfold advanceEnd
        apply scanWhile_eq _ _ _ _ _ (Nat.le_refl _) h3
        · intro x hx1 hx2
          exact ⟨hx2, by simpa using hpair start x h1 (by omega) hx2⟩
        · omega
      rw [he1, sub_sz_eq j start (by omega) (by omega)]
      by_cases hTs : T ≤ j - start
      · rw [if_pos hTs, if_pos hTs, inc_sz_eq cnt (by omega),
          ih (start + 1) j (cnt + 1) (by omega) (by omega) (Nat.le_refl _) (by omega) (by omega)]
        split <;> omega
      · rw [if_neg hTs, if_neg hTs,
          ih (start + 1) j cnt (by omega) (by omega) (Nat.le_refl _) (by omega) (by omega)]
        rw [if_neg (by omega)]
    · rw [if_neg hsj, if_neg (by omega), Nat.add_zero]

/-- Block scan of a block of exactly `T` elements whose last element is more than `W` after
the first: no start position qualifies. -/
theorem burstLoop_none (a : List Transaction) (W : Int) (T i j : Nat) (hW : 0 ≤ W)
    (hj : j ≤ a.length) (hn : a.length < SIZE_MOD) (hsize : i + T = j) (ho : NoOverflow a)
    (hfar : ¬ ((tx a (j - 1)).unix_time - (tx a i).unix_time ≤ W))
    (fuel start e cnt : Nat) (h1 : i ≤ start) (h2 : start ≤ e) (h3 : e ≤ j)
    (h4 : start = i → e = i) :
    burstLoop a W T j fuel start e cnt = cnt := by
  induction fuel generalizing start e cnt with
  | zero => simp [burstLoop]
  | succ f ih =>
    simp only [burstLoop]
    by_cases hsj : start < j
    · rw [if_pos hsj]
      have hge : e ≤ advanceEnd a W j start e := scanWhile_ge _ _ _ _
      have hle : advanceEnd a W j start e ≤ j := scanWhile_le _ _ _ _ h3
      have hstop := scanWhile_stop j
        (fun k => decide (sub_ll (tx a k).unix_time (tx a start).unix_time ≤ W)) (j - e) e
        (Nat.le_refl _)
      have hall := scanWhile_all j
        (fun k => decide (sub_ll (tx a k).unix_time (tx a start).unix_time ≤ W)) (j - e) e
      have hgt : start < advanceEnd a W j start e := by
        by_contra hcontra
        have h' : advanceEnd a W j start e = start := by omega
        apply hstop
        unfold advanceEnd at h'
        rw [h']
        refine ⟨hsj, ?_⟩
        rw [decide_eq_true_eq, sub_ll_eq a ho start start (by omega) (by omega)]
        omega
      have hlt : advanceEnd a W j start e - start < T := by
        by_cases hsi : start = i
        · have hei := h4 hsi
          have : advanceEnd a W j start e ≠ j := by
            intro hc
            have := (hall (j - 1) (by omega) (by unfold advanceEnd at hc; omega)).2
            rw [decide_eq_true_eq, sub_ll_eq a ho (j - 1) start (by omega) (by omega), hsi]
              at this
            exact hfar this
          omega
        · omega
      rw [sub_sz_eq _ _ (by omega) (by omega), if_neg (by omega)]
      exact ih (start + 1) _ cnt (by omega) hgt hle (by omega)
    · rw [if_neg hsj]

/-- On a non-empty array of one account the serial outer loop runs the block scan once, on
the whole array. -/
theorem countBurst_single (a : List Transaction) (W : Int) (T : Nat) (h1 : 1 ≤ a.length)
    (hacc : ∀ k, k < a.length → (tx a k).cc_num = (tx a 0).cc_num) :
    countBurst a a.length W T = burstBlock a W T 0 a.length 0 := by
  have hb := isBlock_blockEnd a a.length 0 (by omega)
  have hend : blockEnd a a.length (tx a 0).cc_num 0 = a.length := by
    by_contra hc
    have hlt : blockEnd a a.length (tx a 0).cc_num 0 < a.length := by
      have := hb.le; omega
    exact hb.stop hlt (hacc _ hlt)
  unfold countBurst
  rw [countBurstLoop_blocks a a.length W T a.length 0 0 (by omega),
    blocksAt_cons a a.length 0 (by omega), hend, blocksAt_of_ge a a.length a.length (Nat.le_refl _)]
  rfl

theorem burstBlock_cluster (a : List Transaction) (W : Int) (T i j : Nat) (hT : 1 ≤ T)
    (hij : i ≤ j) (hj : j ≤ a.length) (hn : a.length < SIZE_MOD)
    (hmono : MonoTime a i j) (ho : NoOverflow a)
    (hcl : (tx a (j - 1)).unix_time - (tx a i).unix_time ≤ W) :
    burstBlock a W T i j 0 = if T ≤ j - i then j - i - T + 1 else 0 := by
  have hpair : ∀ s k, i ≤ s → s ≤ k → k < j →
      sub_ll (tx a k).unix_time (tx a s).unix_time ≤ W := by
    intro s k h1 h2 h3
    rw [sub_ll_eq a ho k s (by omega) (by omega)]
    have e1 : (tx a k).unix_time ≤ (tx a (j - 1)).unix_time := by
      rcases Nat.lt_or_ge k (j - 1) with h | h
      · exact hmono (j - 1) (by omega) k h (by omega)
      · have : k = j - 1 := by omega
        rw [this]
    have e2 : (tx a i).unix_time ≤ (tx a s).unix_time := by
      rcases Nat.lt_or_ge i s with h | h
      · exact hmono s (by omega) i h (Nat.le_refl _)
      · have : s = i := by omega
        rw [this]
    omega
  unfold burstBlock
  rw [burstLoop_cluster a W T i j hT hj hn hpair (j - i) i i 0 (Nat.le_refl _) (Nat.le_refl _)
    hij (Nat.le_refl _) (by omega)]
  simp

theorem burstBlock_far (a : List Transaction) (W : Int) (T i j : Nat) (hW : 0 ≤ W)
    (hj : j ≤ a.length) (hn : a.length < SIZE_MOD) (hsize : i + T = j) (ho : NoOverflow a)
    (hfar : ¬ ((tx a (j - 1)).unix_time - (tx a i).unix_time ≤ W)) :
    burstBlock a W T i j 0 = 0 :=
  burstLoop_none a W T i j hW hj hn hsize ho hfar (j - i) i i 0 (Nat.le_refl _) (Nat.le_refl _)
    (by omega) (fun _ => rfl)

theorem burstBlock_exact (a : List Transaction) (W : Int) (T i j : Nat) (hT : 1 ≤ T)
    (hW : 0 ≤ W) (hj : j ≤ a.length) (hn : a.length < SIZE_MOD) (hsize : i + T = j)
    (hmono : MonoTime a i j) (ho : NoOverflow a) :
    burstBlock a W T i j 0 =
      if (tx a (j - 1)).unix_time - (tx a i).unix_time ≤ W then 1 else 0 := by
  by_cases h : (tx a (j - 1)).unix_time - (tx a i).unix_time ≤ W
  · rw [if_pos h, burstBlock_cluster a W T i j hT (by omega) hj hn hmono ho h,
      if_pos (by omega)]
    omega
  · rw [if_neg h]
    exact burstBlock_far a W T i j hW hj hn hsize ho h

/-- With a window below the distance from the first to the last element of a block of `T`
elements, the first start position of the block does not qualify, whatever the sign of the
window. -/
theorem first_start_short (a : List Transaction) (V : Int) (T i j : Nat) (hT : 1 ≤ T)
    (hj : j ≤ a.length) (hn : a.length < SIZE_MOD) (hsize : i + T = j) (ho : NoOverflow a)
    (hfar : ¬ ((tx a (j - 1)).unix_time - (tx a i).unix_time ≤ V)) :
    sub_sz (advanceEnd a V j i i) i < T := by
  have hge : i ≤ advanceEnd a V j i i := scanWhile_ge _ _ _ _
  have hle : advanceEnd a V j i i ≤ j := scanWhile_le _ _ _ _ (by omega)
  have hall := scanWhile_all j
    (fun k => decide (sub_ll (tx a k).unix_time (tx a i).unix_time ≤ V)) (j - i) i
  have hne : advanceEnd a V j i i ≠ j := by
    intro hc
    have := (hall (j - 1) (by omega) (by unfold advanceEnd at hc; omega)).2
    rw [decide_eq_true_eq, sub_ll_eq a ho (j - 1) i (by omega) (by omega)] at this
    exact hfar this
  rw [sub_sz_eq _ _ hge (by omega)]
  omega

/-- C8 as stated fails for `W = 0`: a block of `T = 2` transactions with equal timestamps
has its last transaction exactly `W = 0` seconds after the first, and the scan with window
`W - 1 = -1` counts `1`, not `0` (at `start = 1` the index `end` is still `0`, and
`end - start` wraps to `2^64 - 1`). -/
theorem burst_boundary_counterexample :
    OneAccount tieTx 0 2 ∧ MonoTime tieTx 0 2 ∧
    (tx tieTx 1).unix_time - (tx tieTx 0).unix_time = 0 ∧
    burstBlock tieTx 0 2 0 2 0 = 1 ∧
    advanceEnd tieTx (0 - 1) 2 1 0 = 0 ∧ sub_sz 0 1 = 2 ^ 64 - 1 ∧
    burstBlock tieTx (0 - 1) 2 0 2 0 = 1 ∧ countBurst tieTx 2 (0 - 1) 2 = 1 := by
  decide

/-- C8, amended: for `T >= 1`, `W >= 0` and a block `[i, j)` of exactly `T` transactions
with non-decreasing timestamps, the block scan counts `1` if the last timestamp is at most
`W` above the first and `0` otherwise; a block whose last transaction is exactly `W` after
the first counts `1`; with window `W - 1` the first start position of that block does not
qualify, and for `W >= 1` the block counts `0`; when the block is the whole array of one
account these are the values of `countBurst`. -/
theorem burst_boundary (a : List Transaction) (W : Int) (T i j : Nat) (hT : 1 ≤ T)
    (hW : 0 ≤ W) (hj : j ≤ a.length) (hn : a.length < SIZE_MOD) (hsize : i + T = j)
    (hacc : OneAccount a i j) (hmono : MonoTime a i j) (ho : NoOverflow a) :
    (burstBlock a W T i j 0 =
      if (tx a (j - 1)).unix_time - (tx a i).unix_time ≤ W then 1 else 0) ∧
    ((tx a (j - 1)).unix_time - (tx a i).unix_time = W →
      burstBlock a W T i j 0 = 1 ∧ sub_sz (advanceEnd a (W - 1) j i i) i < T ∧
      (1 ≤ W → burstBlock a (W - 1) T i j 0 = 0)) ∧
    (i = 0 → j = a.length →
      (countBurst a a.length W T =
        if (tx a (j - 1)).unix_time - (tx a i).unix_time ≤ W then 1 else 0) ∧
      ((tx a (j - 1)).unix_time - (tx a i).unix_time = W → 1 ≤ W →
        countBurst a a.length (W - 1) T = 0)) := by
  have hacc0 : i = 0 → ∀ k, k < a.length → j = a.length →
      (tx a k).cc_num = (tx a 0).cc_num := by
    intro hi k hk hjn
    subst hi
    exact hacc k (by omega) (Nat.zero_le _)
  refine ⟨burstBlock_exact a W T i j hT hW hj hn hsize hmono ho, ?_, ?_⟩
  · intro he
    refine ⟨?_, first_start_short a (W - 1) T i j hT hj hn hsize ho (by omega), ?_⟩
    · rw [burstBlock_exact a W T i j hT hW hj hn hsize hmono ho, if_pos (by omega)]
    · intro h1
      rw [burstBlock_exact a (W - 1) T i j hT (by omega) hj hn hsize hmono ho,
        if_neg (by omega)]
  · intro hi0 hjn
    have hsingle : ∀ V : Int, countBurst a a.length V T = burstBlock a V T i j 0 := by
      intro V
      rw [countBurst_single a V T (by omega) (fun k hk => hacc0 hi0 k hk hjn), hi0, hjn]
    constructor
    · rw [hsingle]
      exact burstBlock_exact a W T i j hT hW hj hn hsize hmono ho
    · intro he h1
      rw [hsingle, burstBlock_exact a (W - 1) T i j hT (by omega) hj hn hsize hmono ho,
        if_neg (by omega)]

theorem burst_boundary_witness :
    burstBlock traceTx 450 5 0 5 0 = 1 ∧ burstBlock traceTx (450 - 1) 5 0 5 0 = 0 :=
  ⟨((burst_boundary traceTx 450 5 0 5 (by decide) (by decide) (by decide) (by decide)
      (by decide) (by decide) (by decide) (by decide)).2.1 (by decide)).1,
   ((burst_boundary traceTx 450 5 0 5 (by decide) (by decide) (by decide) (by decide)
      (by decide) (by decide) (by decide) (by decide)).2.1 (by decide)).2.2 (by decide)⟩

/-- C9: for the five transactions at `0, 100, 150, 400, 450` with `W = 300`, `T = 3`, the
inner loop stops at `end = 3, 4, 5, 5, 5` for `start = 0, ..., 4`, so the start positions
`0`, `1`, `2` qualify and `3`, `4` do not; `countBurst` returns `3`, and the category
count is `1` (serial and parallel). -/
theorem trace_example :
    advanceEnd traceTx 300 5 0 0 = 3 ∧ advanceEnd traceTx 300 5 1 3 = 4 ∧
    advanceEnd traceTx 300 5 2 4 = 5 ∧ advanceEnd traceTx 300 5 3 5 = 5 ∧
    advanceEnd traceTx 300 5 4 5 = 5 ∧
    (List.range 5).map (fun s => decide (3 ≤ windowCount traceTx 5 300 s)) =
      [true, true, true, false, false] ∧
    countBurst traceTx 5 300 3 = 3 ∧
    countBurst_parallel traceTx 5 300 3 (build_card_blocks traceTx 5).1
      (build_card_blocks traceTx 5).2.1 (build_card_blocks traceTx 5).2.2 = 3 ∧
    countCategoryNovelty_likeSource allocOk traceTx 5 = some 1 ∧
    countCategoryNovelty_parallel allocOk traceTx 5 (build_card_blocks traceTx 5).1
      (build_card_blocks traceTx 5).2.1 (build_card_blocks traceTx 5).2.2 = 1 := by
  decide

/-! ## Strings and sorting -/

theorem strcmpChars_self (xs : List Char) : strcmpChars xs xs = 0 := by
  induction xs with
  | nil => rfl
  | cons x xs ih => simp [strcmpChars, ih]

theorem strcmpChars_cons (x y : Char) (xs ys : List Char) :
    (x < y ∧ strcmpChars (x :: xs) (y :: ys) = -1) ∨
    (y < x ∧ strcmpChars (x :: xs) (y :: ys) = 1) ∨
    (x = y ∧ strcmpChars (x :: xs) (y :: ys) = strcmpChars xs ys) := by
  simp only [strcmpChars]
  rcases lt_trichotomy x y with h | h | h
  · left; simp [h]
  · right; right; subst h; simp
  · right; left; simp [h, lt_asymm h]

theorem strcmpChars_eq_zero (xs ys : List Char) (h : strcmpChars xs ys = 0) : xs = ys := by
  induction xs generalizing ys with
  | nil =>
    cases ys with
    | nil => rfl
    | cons y ys => simp [strcmpChars] at h
  | cons x xs ih =>
    cases ys with
    | nil => simp [strcmpChars] at h
    | cons y ys =>
      rcases strcmpChars_cons x y xs ys with ⟨_, e⟩ | ⟨_, e⟩ | ⟨e1, e⟩
      · rw [e] at h; omega
      · rw [e] at h; omega
      · rw [e] at h; rw [e1, ih ys h]

theorem strcmpChars_total (xs ys : List Char) :
    strcmpChars xs ys ≤ 0 ∨ strcmpChars ys xs ≤ 0 := by
  induction xs generalizing ys with
  | nil =>
    cases ys with
    | nil => left; simp [strcmpChars]
    | cons y ys => left; simp [strcmpChars]
  | cons x xs ih =>
    cases ys with
    | nil => right; simp [strcmpChars]
    | cons y ys =>
      simp only [strcmpChars]
      rcases lt_trichotomy x y with h | h | h
      · left; simp [h]
      · subst h; simpa using ih ys
      · right; simp [h]

theorem strcmpChars_trans (xs ys zs : List Char) (h1 : strcmpChars xs ys ≤ 0)
    (h2 : strcmpChars ys zs ≤ 0) : strcmpChars xs zs ≤ 0 := by
  induction xs generalizing ys zs with
  | nil =>
    cases zs with
    | nil => simp [strcmpChars]
    | cons z zs => simp [strcmpChars]
  | cons x xs ih =>
    cases ys with
    | nil => simp [strcmpChars] at h1
    | cons y ys =>
      cases zs with
      | nil => simp [strcmpChars] at h2
      | cons z zs =>
        rcases strcmpChars_cons x y xs ys with ⟨a1, e⟩ | ⟨_, e⟩ | ⟨a1, e⟩
        · rcases strcmpChars_cons y z ys zs with ⟨b1, e2⟩ | ⟨_, e2⟩ | ⟨b1, e2⟩
          · rcases strcmpChars_cons x z xs zs with ⟨_, e3⟩ | ⟨c1, _⟩ | ⟨c1, _⟩
            · omega
            · exact absurd (lt_trans (lt_trans a1 b1) c1) (lt_irrefl _)
            · rw [c1] at a1; exact absurd (lt_trans a1 b1) (lt_irrefl _)
          · rw [e2] at h2; omega
          · subst b1
            rcases strcmpChars_cons x y xs zs with ⟨_, e3⟩ | ⟨c1, _⟩ | ⟨c1, _⟩
            · omega
            · exact absurd (lt_trans a1 c1) (lt_irrefl _)
            · rw [c1] at a1; exact absurd a1 (lt_irrefl _)
        · rw [e] at h1; omega
        · subst a1
          rw [e] at h1
          rcases strcmpChars_cons x z ys zs with ⟨b1, e2⟩ | ⟨_, e2⟩ | ⟨b1, e2⟩
          · rcases strcmpChars_cons x z xs zs with ⟨_, e3⟩ | ⟨c1, _⟩ | ⟨c1, _⟩
            · omega
            · exact absurd (lt_trans b1 c1) (lt_irrefl _)
            · rw [c1] at b1; exact absurd b1 (lt_irrefl _)
          · rw [e2] at h2; omega
          · rw [e2] at h2
            rcases strcmpChars_cons x z xs zs with ⟨c1, _⟩ | ⟨c1, _⟩ | ⟨_, e3⟩
            · rw [b1] at c1; exact absurd c1 (lt_irrefl _)
            · rw [b1] at c1; exact absurd c1 (lt_irrefl _)
            · rw [e3]; exact ih ys zs h1 h2

theorem strcmp_eq_zero_iff (s t : String) : strcmp s t = 0 ↔ s = t := by
  unfold strcmp
  constructor
  · intro h; exact String.ext_iff.2 (strcmpChars_eq_zero _ _ h)
  · intro h; rw [h]; exact strcmpChars_self _

instance cmp_str_total : IsTotal String (fun x y => cmp_str x y ≤ 0) :=
  ⟨fun x y => strcmpChars_total x.data y.data⟩

instance cmp_str_trans : IsTrans String (fun x y => cmp_str x y ≤ 0) :=
  ⟨fun x y z h1 h2 => strcmpChars_trans x.data y.data z.data h1 h2⟩

theorem strcmpChars_antisymm (xs ys : List Char) (h1 : strcmpChars xs ys ≤ 0)
    (h2 : strcmpChars ys xs ≤ 0) : xs = ys := by
  induction xs generalizing ys with
  | nil =>
    cases ys with
    | nil => rfl
    | cons y ys => simp [strcmpChars] at h2
  | cons x xs ih =>
    cases ys with
    | nil => simp [strcmpChars] at h1
    | cons y ys =>
      rcases strcmpChars_cons x y xs ys with ⟨a1, e⟩ | ⟨_, e⟩ | ⟨a1, e⟩
      · rcases strcmpChars_cons y x ys xs with ⟨b1, _⟩ | ⟨_, e2⟩ | ⟨b1, _⟩
        · exact absurd (lt_trans a1 b1) (lt_irrefl _)
        · rw [e2] at h2; omega
        · rw [b1] at a1; exact absurd a1 (lt_irrefl _)
      · rw [e] at h1; omega
      · subst a1
        rw [e] at h1
        rcases strcmpChars_cons x x ys xs with ⟨b1, _⟩ | ⟨b1, _⟩ | ⟨_, e2⟩
        · exact absurd b1 (lt_irrefl _)
        · exact absurd b1 (lt_irrefl _)
        · rw [e2] at h2; rw [ih ys h1 h2]

theorem cmp_str_antisymm (x y : String) (h1 : cmp_str x y ≤ 0) (h2 : cmp_str y x ≤ 0) :
    x = y :=
  String.ext_iff.2 (strcmpChars_antisymm x.data y.data h1 h2)

instance cmp_str_antisymm_inst : IsAntisymm String (fun x y => cmp_str x y ≤ 0) :=
  ⟨cmp_str_antisymm⟩

theorem qsort_sorted (l : List String) :
    (qsort cmp_str l).Pairwise (fun x y => cmp_str x y ≤ 0) :=
  List.sorted_insertionSort _ l

theorem qsort_perm (l : List String) : (qsort cmp_str l).Perm l :=
  List.perm_insertionSort _ l

/-- Every rearrangement of `l` that is sorted for `cmp_str` is the list that the model of
`qsort` returns. -/
theorem qsort_unique (l l1 : List String) (hp : l1.Perm l)
    (hs : l1.Pairwise (fun x y => cmp_str x y ≤ 0)) : l1 = qsort cmp_str l :=
  List.eq_of_perm_of_sorted (hp.trans (qsort_perm l).symm) hs (qsort_sorted l)

/-! ## Counting distinct categories -/

theorem mem_seen (g : Nat → String) (k : Nat) (x : String) :
    x ∈ seen g k ↔ ∃ i, i < k ∧ g i = x := by
  simp [seen]

theorem seen_succ (g : Nat → String) (k : Nat) : seen g (k + 1) = insert (g k) (seen g k) := by
  ext x
  simp only [mem_seen, Finset.mem_insert]
  constructor
  · rintro ⟨i, hi, rfl⟩
    by_cases h : i = k
    · left; rw [h]
    · right; exact ⟨i, by omega, rfl⟩
  · rintro (h | ⟨i, hi, rfl⟩)
    · exact ⟨k, by omega, h.symm⟩
    · exact ⟨i, by omega, rfl⟩

theorem card_seen_le (g : Nat → String) (k : Nat) : (seen g k).card ≤ k := by
  unfold seen
  calc ((List.range k).map g).toFinset.card ≤ ((List.range k).map g).length :=
        List.toFinset_card_le _
    _ = k := by simp

/-- In a sorted sequence equal values are contiguous. -/
theorem sorted_between (g : Nat → String) (m : Nat)
    (hs : ∀ i j, i < j → j < m → cmp_str (g i) (g j) ≤ 0)
    (i p t : Nat) (h1 : i ≤ p) (h2 : p ≤ t) (h3 : t < m) (he : g i = g t) : g p = g t := by
  rcases Nat.eq_or_lt_of_le h1 with h | h
  · rw [← h]; exact he
  rcases Nat.eq_or_lt_of_le h2 with h' | h'
  · rw [h']
  · have a1 := hs i p h (by omega)
    have a2 := hs p t h' h3
    rw [he] at a1
    exact cmp_str_antisymm _ _ a2 a1

theorem mem_seen_sorted (g : Nat → String) (m : Nat)
    (hs : ∀ i j, i < j → j < m → cmp_str (g i) (g j) ≤ 0) (k : Nat) (hk : k < m) :
    g k ∈ seen g k ↔ k ≠ 0 ∧ g (k - 1) = g k := by
  rw [mem_seen]
  constructor
  · rintro ⟨i, hi, he⟩
    exact ⟨by omega, sorted_between g m hs i (k - 1) k (by omega) (by omega) hk he⟩
  · rintro ⟨h0, he⟩
    exact ⟨k - 1, by omega, he⟩

/-- The serial counting loop returns the number of distinct values of a sorted array. -/
theorem uniqueLoop_eq (cats : List String) (m : Nat) (hm : m < SIZE_MOD)
    (hs : ∀ i j, i < j → j < m → cmp_str (cats.getD i "") (cats.getD j "") ≤ 0)
    (fuel k unique : Nat) (hk : k ≤ m) (hf : m - k ≤ fuel)
    (hu : unique = (seen (fun i => cats.getD i "") k).card) :
    uniqueLoop cats m fuel k unique = (seen (fun i => cats.getD i "") m).card := by
  induction fuel generalizing k unique with
  | zero =>
    have : k = m := by omega
    rw [uniqueLoop, hu, this]
  | succ f ih =>
    simp only [uniqueLoop]
    by_cases hkm : k < m
    · rw [if_pos hkm]
      apply ih (k + 1) _ (by omega) (by omega)
      have hle := card_seen_le (fun i => cats.getD i "") k
      have hmem := mem_seen_sorted (fun i => cats.getD i "") m hs k hkm
      rw [seen_succ]
      by_cases hc : k = 0 ∨ strcmp (cats.getD k "") (cats.getD (k - 1) "") ≠ 0
      · rw [if_pos hc, inc_sz_eq unique (by omega), hu, Finset.card_insert_of_not_mem]
        rw [hmem]
        rintro ⟨h0, he⟩
        rcases hc with hc | hc
        · exact h0 hc
        · apply hc
          rw [strcmp_eq_zero_iff]
          exact he.symm
      · rw [if_neg hc, hu, Finset.insert_eq_of_mem]
        rw [hmem]
        push_neg at hc
        exact ⟨hc.1, ((strcmp_eq_zero_iff _ _).1 hc.2).symm⟩
    · rw [if_neg hkm, hu]
      have : k = m := by omega
      rw [this]

/-- The group-skipping loop of the parallel file returns the number of distinct values of a
sorted array. -/
theorem groupLoop_eq (cats : List String) (m : Nat) (hm : m < SIZE_MOD)
    (hs : ∀ i j, i < j → j < m → cmp_str (cats.getD i "") (cats.getD j "") ≤ 0)
    (fuel k unique : Nat) (hk : k ≤ m) (hf : m - k ≤ fuel)
    (hu : unique = (seen (fun i => cats.getD i "") k).card)
    (hnew : k < m → cats.getD k "" ∉ seen (fun i => cats.getD i "") k) :
    groupLoop cats m fuel k unique = (seen (fun i => cats.getD i "") m).card := by
  induction fuel generalizing k unique with
  | zero =>
    have : k = m := by omega
    rw [groupLoop, hu, this]
  | succ f ih =>
    simp only [groupLoop]
    by_cases hkm : k < m
    · rw [if_pos hkm]
      have hge := scanWhile_ge m
        (fun t => decide (strcmp (cats.getD t "") (cats.getD k "") = 0)) (m - (k + 1)) (k + 1)
      have hle := scanWhile_le m
        (fun t => decide (strcmp (cats.getD t "") (cats.getD k "") = 0)) (m - (k + 1)) (k + 1)
        (by omega)
      have hall := scanWhile_all m
        (fun t => decide (strcmp (cats.getD t "") (cats.getD k "") = 0)) (m - (k + 1)) (k + 1)
      have hstop := scanWhile_stop m
        (fun t => decide (strcmp (cats.getD t "") (cats.getD k "") = 0)) (m - (k + 1)) (k + 1)
        (Nat.le_refl _)
      generalize scanWhile m
        (fun t => decide (strcmp (cats.getD t "") (cats.getD k "") = 0)) (m - (k + 1)) (k + 1)
        = t at hge hle hall hstop
      have hrun : ∀ x, k ≤ x → x < t → cats.getD x "" = cats.getD k "" := by
        intro x h1 h2
        rcases Nat.eq_or_lt_of_le h1 with h | h
        · rw [← h]
        · have := (hall x (by omega) h2).2
          rw [decide_eq_true_eq, strcmp_eq_zero_iff] at this
          exact this
      have hset : seen (fun i => cats.getD i "") t =
          insert (cats.getD k "") (seen (fun i => cats.getD i "") k) := by
        ext x
        simp only [mem_seen, Finset.mem_insert]
        constructor
        · rintro ⟨i, hi, rfl⟩
          by_cases h : i < k
          · right; exact ⟨i, h, rfl⟩
          · left; exact hrun i (by omega) hi
        · rintro (h | ⟨i, hi, rfl⟩)
          · exact ⟨k, by omega, h.symm⟩
          · exact ⟨i, by omega, rfl⟩
      have hcard := card_seen_le (fun i => cats.getD i "") k
      apply ih t _ hle (by omega)
      · rw [hset, Finset.card_insert_of_not_mem (hnew hkm), inc_sz_eq unique (by omega), hu]
      · intro htm
        rw [mem_seen]
        rintro ⟨i, hi, he⟩
        have hb := sorted_between (fun i => cats.getD i "") m hs i (max i k) t
          (Nat.le_max_left _ _) (by omega) htm he
        have hk' := hrun (max i k) (Nat.le_max_right _ _) (by omega)
        apply hstop
        refine ⟨htm, ?_⟩
        rw [decide_eq_true_eq, strcmp_eq_zero_iff]
        simp only at hb
        rw [← hb, hk']
    · rw [if_neg hkm, hu]
      have : k = m := by omega
      rw [this]

theorem map_getD_range (l : List String) :
    (List.range l.length).map (fun i => l.getD i "") = l := by
  apply List.ext_getElem
  · simp
  · intro k h1 h2
    simp [List.getElem?_eq_getElem h2]

theorem sortedCats_length (a : List Transaction) (i m : Nat) :
    (sortedCats a i m).length = m := by
  unfold sortedCats qsort
  rw [List.length_insertionSort]
  simp [blockCats]

theorem sortedCats_sorted (a : List Transaction) (i m : Nat) (p q : Nat) (h1 : p < q)
    (h2 : q < m) :
    cmp_str ((sortedCats a i m).getD p "") ((sortedCats a i m).getD q "") ≤ 0 := by
  have hlen := sortedCats_length a i m
  have hs : (sortedCats a i m).Pairwise (fun x y => cmp_str x y ≤ 0) := qsort_sorted _
  rw [List.getD_eq_getElem _ _ (by omega : p < (sortedCats a i m).length),
    List.getD_eq_getElem _ _ (by omega : q < (sortedCats a i m).length)]
  exact List.pairwise_iff_getElem.1 hs p q (by omega) (by omega) h1

theorem seen_sortedCats (a : List Transaction) (i m : Nat) :
    (seen (fun k => (sortedCats a i m).getD k "") m).card = distinctCount (blockCats a i m) := by
  have hlen := sortedCats_length a i m
  unfold seen
  have : (List.range m).map (fun k => (sortedCats a i m).getD k "") = sortedCats a i m := by
    have := map_getD_range (sortedCats a i m)
    rw [hlen] at this
    exact this
  rw [this, List.card_toFinset]
  unfold distinctCount
  exact (List.Perm.dedup (qsort_perm (blockCats a i m))).length_eq

/-- Serial count of one block: the number of distinct categories of the block. -/
theorem uniqueLoop_block (a : List Transaction) (i m : Nat) (hm : m < SIZE_MOD) :
    uniqueLoop (sortedCats a i m) m m 0 0 = distinctCount (blockCats a i m) := by
  rw [uniqueLoop_eq (sortedCats a i m) m hm (sortedCats_sorted a i m) m 0 0 (Nat.zero_le _)
    (by omega) (by simp [seen])]
  exact seen_sortedCats a i m

/-- Parallel count of one block: the number of distinct categories of the block. -/
theorem groupLoop_block (a : List Transaction) (i m : Nat) (hm : m < SIZE_MOD) :
    groupLoop (sortedCats a i m) m m 0 0 = distinctCount (blockCats a i m) := by
  rw [groupLoop_eq (sortedCats a i m) m hm (sortedCats_sorted a i m) m 0 0 (Nat.zero_le _)
    (by omega) (by simp [seen]) (fun _ => by simp [seen])]
  exact seen_sortedCats a i m

theorem distinctCount_le (l : List String) : distinctCount l ≤ l.length :=
  (List.dedup_sublist l).length_le

theorem blockCats_length (a : List Transaction) (i m : Nat) : (blockCats a i m).length = m := by
  simp [blockCats]

theorem runCategories_block (a : List Transaction) (n i j : Nat) (hij : i < j)
    (hb : IsBlock a n i j) : runCategories a n i = blockCats a i (j - i) := by
  unfold runCategories blockCats
  rw [filter_range_interval n i j hb.le, List.range'_eq_map_range, List.map_map]
  · rfl
  · intro k hk
    simp only [Bool.and_eq_true, decide_eq_true_eq, inRun_iff]
    constructor
    · rintro ⟨h1, h2⟩
      refine ⟨h1, ?_⟩
      by_contra hc
      have hjn : j < n := by omega
      exact hb.stop hjn (h2 j (by omega) (by omega))
    · rintro ⟨h1, h2⟩
      exact ⟨h1, fun m hm1 hm2 => hb.uniform m hm1 (by omega)⟩

theorem filter_isRunStart_block (a : List Transaction) (n i j : Nat) (hij : i < j)
    (hb : IsBlock a n i j) (hstart : isRunStart a i = true) :
    (List.range' i (j - i)).filter (isRunStart a) = [i] := by
  obtain ⟨len, hlen⟩ : ∃ len, j - i = len + 1 := ⟨j - i - 1, by omega⟩
  rw [hlen, List.range'_succ, List.filter_cons, if_pos hstart]
  congr 1
  rw [List.filter_eq_nil_iff]
  intro k hk
  rw [List.mem_range'_1] at hk
  unfold isRunStart
  simp only [Bool.or_eq_true, decide_eq_true_eq, not_or, not_not]
  refine ⟨by omega, ?_⟩
  rw [hb.uniform k (by omega) (by omega), hb.uniform (k - 1) (by omega) (by omega)]

/-- The serial category loop, started at a run start `i`, adds to the counter the distinct
counts of the runs that start in `[i, n)`. -/
theorem noveltyLoop_eq (a : List Transaction) (n : Nat) (hn : n < SIZE_MOD)
    (fuel i susp : Nat) (hi : i ≤ n) (hf : n - i ≤ fuel)
    (hstart : i < n → isRunStart a i = true) (hc : susp + (n - i) < SIZE_MOD) :
    noveltyLoop allocOk a n fuel i susp =
      some (susp + (((List.range' i (n - i)).filter (isRunStart a)).map
        (fun s => distinctCount (runCategories a n s))).sum) := by
  induction fuel generalizing i susp with
  | zero =>
    have : n - i = 0 := by omega
    simp [noveltyLoop, this]
  | succ f ih =>
    simp only [noveltyLoop]
    by_cases hin : i < n
    · rw [if_pos hin]
      have hb := isBlock_blockEnd a n i hin
      have hgt := blockEnd_gt a n i hin
      set j := blockEnd a n (tx a i).cc_num i with hj
      have hjn : j ≤ n := hb.le
      have hm : sub_sz j i = j - i := sub_sz_eq j i (by omega) (by omega)
      have hd := distinctCount_le (blockCats a i (j - i))
      rw [blockCats_length] at hd
      simp only [allocOk, if_true]
      rw [hm, uniqueLoop_block a i (j - i) (by omega), add_sz_eq _ _ (by omega)]
      rw [ih j _ hjn (by omega) ?_ (by omega)]
      · have hsplit : List.range' i (n - i) =
            List.range' i (j - i) ++ List.range' j (n - j) := by
          have h2 := List.range'_append_1 i (j - i) (n - j)
          have h3 : i + (j - i) = j := by omega
          have h4 : n - j + (j - i) = n - i := by omega
          rw [h3, h4] at h2
          exact h2.symm
        rw [hsplit, List.filter_append, filter_isRunStart_block a n i j hgt hb (hstart hin),
          List.map_append, List.sum_append]
        simp only [List.map_cons, List.map_nil, List.sum_cons, List.sum_nil]
        rw [runCategories_block a n i j hgt hb]
        congr 1
        omega
      · intro hjlt
        unfold isRunStart
        simp only [Bool.or_eq_true, decide_eq_true_eq]
        right
        rw [hb.uniform (j - 1) (by omega) (by omega)]
        exact hb.stop hjlt
    · rw [if_neg hin]
      have : n - i = 0 := by omega
      simp [this]

/-- C3: with every allocation succeeding and `n` a `size_t`, the serial
`countCategoryNovelty_likeSource` returns the sum, over the maximal runs of equal `cc_num`,
of the number of distinct category strings of the run (a count that does not depend on the
order of the strings); a one-account input with categories
`grocery, grocery, travel, travel, travel, gas` gives `3`. -/
theorem novelty_eq_spec (a : List Transaction) (hn : a.length < SIZE_MOD) :
    countCategoryNovelty_likeSource allocOk a a.length = some (noveltySpec a a.length) ∧
    (∀ l1 l2 : List String, l1.Perm l2 → distinctCount l1 = distinctCount l2) ∧
    (∀ s t : String, strcmp s t = 0 ↔ s = t) ∧
    countCategoryNovelty_likeSource allocOk catsTx 6 = some 3 := by
  refine ⟨?_, fun l1 l2 h => (List.Perm.dedup h).length_eq, strcmp_eq_zero_iff, by decide⟩
  unfold countCategoryNovelty_likeSource noveltySpec
  rw [noveltyLoop_eq a a.length hn a.length 0 0 (Nat.zero_le _) (by omega)
    (fun _ => by simp [isRunStart]) (by omega)]
  simp [List.range_eq_range']

theorem novelty_eq_spec_witness :
    countCategoryNovelty_likeSource allocOk sampleTx sampleTx.length = some 5 :=
  (novelty_eq_spec sampleTx (by decide)).1.trans (by decide)

/-! ## Serial and parallel category counts, scheduling -/

theorem sub_sz_lt (x y : Nat) : sub_sz x y < SIZE_MOD :=
  Nat.mod_lt _ SIZE_MOD_pos

/-- The serial category loop visits the blocks of `blocksAt` in order. -/
theorem noveltyLoop_blocks (a : List Transaction) (n : Nat) (fuel i susp : Nat)
    (hf : n - i ≤ fuel) :
    noveltyLoop allocOk a n fuel i susp =
      some ((blocksAt a n i).foldl (fun s b => add_sz s
        (uniqueLoop (sortedCats a b.1 (sub_sz b.2 b.1)) (sub_sz b.2 b.1) (sub_sz b.2 b.1) 0 0))
        susp) := by
  induction fuel generalizing i susp with
  | zero =>
    rw [blocksAt_of_ge a n i (by omega)]
    simp [noveltyLoop]
  | succ f ih =>
    simp only [noveltyLoop]
    by_cases hin : i < n
    · have hgt := blockEnd_gt a n i hin
      rw [if_pos hin, blocksAt_cons a n i hin, List.foldl_cons]
      simp only [allocOk, if_true]
      exact ih _ _ (by omega)
    · rw [if_neg hin, blocksAt_of_ge a n i (by omega)]
      simp

theorem add_sz_zero (s : Nat) (h : s < SIZE_MOD) : add_sz s 0 = s := by
  unfold add_sz
  rw [Nat.add_zero]
  exact Nat.mod_eq_of_lt h

theorem noveltyStep_eq (mallocOk : Nat → Bool) (a : List Transaction) (starts ends : List Nat)
    (s bi : Nat) (h : s < SIZE_MOD) :
    noveltyStep mallocOk a starts ends s bi =
      add_sz s (noveltyLocal mallocOk a starts ends bi) := by
  unfold noveltyStep noveltyLocal
  simp only
  split
  · exact (add_sz_zero s h).symm
  · split
    · exact (add_sz_zero s h).symm
    · rfl

theorem foldl_step_lt {β : Type} (L : List β) (g : Nat → β → Nat) (c : β → Nat)
    (hg : ∀ s b, s < SIZE_MOD → g s b = add_sz s (c b)) (s0 : Nat) (h0 : s0 < SIZE_MOD) :
    L.foldl g s0 < SIZE_MOD := by
  induction L generalizing s0 with
  | nil => exact h0
  | cons x L ih =>
    rw [List.foldl_cons, hg s0 x h0]
    exact ih _ (add_sz_lt _ _)

theorem countCategoryNovelty_parallel_blocks (a : List Transaction) (n : Nat)
    (L : List (Nat × Nat)) :
    countCategoryNovelty_parallel allocOk a n (L.map Prod.fst) (L.map Prod.snd) L.length =
      L.foldl (fun s b => add_sz s
        (groupLoop (sortedCats a b.1 (sub_sz b.2 b.1)) (sub_sz b.2 b.1) (sub_sz b.2 b.1) 0 0))
        0 := by
  unfold countCategoryNovelty_parallel
  rw [foldl_acc (List.range L.length) _ _
    (fun s b h => noveltyStep_eq allocOk a (L.map Prod.fst) (L.map Prod.snd) s b h) 0
    SIZE_MOD_pos]
  rw [← foldl_range_getD L (0, 0) (fun s b => add_sz s
    (groupLoop (sortedCats a b.1 (sub_sz b.2 b.1)) (sub_sz b.2 b.1) (sub_sz b.2 b.1) 0 0)) 0]
  apply List.foldl_ext
  intro s bi _
  have hS : (L.map Prod.fst).getD bi 0 = (L.getD bi (0, 0)).1 := List.getD_map L (0, 0) Prod.fst
  have hE : (L.map Prod.snd).getD bi 0 = (L.getD bi (0, 0)).2 := List.getD_map L (0, 0) Prod.snd
  unfold noveltyLocal
  rw [hS, hE]
  simp only [allocOk, Bool.true_eq_false, if_false]
  split
  · rename_i h0
    rw [h0]
    rfl
  · rfl

/-- Serial and parallel category totals agree over the blocks of `build_card_blocks`. -/
theorem serial_parallel_novelty (a : List Transaction) (hn : a.length < SIZE_MOD) :
    countCategoryNovelty_likeSource allocOk a a.length =
      some (countCategoryNovelty_parallel allocOk a a.length (build_card_blocks a a.length).1
        (build_card_blocks a a.length).2.1 (build_card_blocks a a.length).2.2) := by
  by_cases h0 : a.length = 0
  · rw [h0]; rfl
  · rw [build_card_blocks_eq a a.length (by omega) hn, segs_eq_blocksAt a a.length (by omega)]
    rw [countCategoryNovelty_parallel_blocks]
    unfold countCategoryNovelty_likeSource
    rw [noveltyLoop_blocks a a.length a.length 0 0 (by omega)]
    congr 1
    apply List.foldl_ext
    intro s b _
    rw [uniqueLoop_block a b.1 _ (sub_sz_lt _ _), groupLoop_block a b.1 _ (sub_sz_lt _ _)]

/-- C5: with every allocation succeeding and `n` a `size_t`, the serial
`countCategoryNovelty_likeSource` (which counts the positions of the sorted category array
that differ from their predecessor) equals `countCategoryNovelty_parallel` over the blocks
of `build_card_blocks` (which counts groups by skipping the strings equal to the first of
the group). -/
theorem novelty_eq_parallel (a : List Transaction) (hn : a.length < SIZE_MOD) :
    countCategoryNovelty_likeSource allocOk a a.length =
      some (countCategoryNovelty_parallel allocOk a a.length (build_card_blocks a a.length).1
        (build_card_blocks a a.length).2.1 (build_card_blocks a a.length).2.2) :=
  serial_parallel_novelty a hn

theorem novelty_eq_parallel_witness :
    countCategoryNovelty_likeSource allocOk sampleTx 8 =
      some (countCategoryNovelty_parallel allocOk sampleTx 8 (build_card_blocks sampleTx 8).1
        (build_card_blocks sampleTx 8).2.1 (build_card_blocks sampleTx 8).2.2) :=
  novelty_eq_parallel sampleTx (by decide)

theorem foldl_step_sum (l : List Nat) (step : Nat → Nat → Nat) (c : Nat → Nat)
    (hg : ∀ s b, s < SIZE_MOD → step s b = add_sz s (c b)) (s0 : Nat) (h0 : s0 < SIZE_MOD) :
    l.foldl step s0 = (s0 + (l.map c).sum) % SIZE_MOD := by
  induction l generalizing s0 with
  | nil => simp [Nat.mod_eq_of_lt h0]
  | cons x l ih =>
    rw [List.foldl_cons, hg s0 x h0, ih _ (add_sz_lt _ _)]
    simp only [List.map_cons, List.sum_cons]
    generalize (l.map c).sum = S
    unfold add_sz SIZE_MOD
    omega

theorem ompReduce_sum (groups : List (List Nat)) (step : Nat → Nat → Nat) (c : Nat → Nat)
    (hg : ∀ s b, s < SIZE_MOD → step s b = add_sz s (c b)) (t0 : Nat) (h0 : t0 < SIZE_MOD) :
    groups.foldl (fun total g => add_sz total (g.foldl step 0)) t0 =
      (t0 + (groups.flatten.map c).sum) % SIZE_MOD := by
  induction groups generalizing t0 with
  | nil => simp [Nat.mod_eq_of_lt h0]
  | cons g groups ih =>
    rw [List.foldl_cons, ih _ (add_sz_lt _ _), foldl_step_sum g step c hg 0 SIZE_MOD_pos]
    simp only [List.flatten_cons, List.map_append, List.sum_append]
    generalize (g.map c).sum = A
    generalize ((groups.flatten).map c).sum = B
    unfold add_sz SIZE_MOD
    omega

/-- Any assignment of the iterations `0, ..., nb - 1` to workers gives the total of the
loop run in index order, when the loop body adds a per-iteration value modulo `2^64`. -/
theorem ompReduce_eq (groups : List (List Nat)) (nb : Nat) (step : Nat → Nat → Nat)
    (c : Nat → Nat) (hg : ∀ s b, s < SIZE_MOD → step s b = add_sz s (c b))
    (hperm : groups.flatten.Perm (List.range nb)) :
    ompReduce step groups = (List.range nb).foldl step 0 := by
  unfold ompReduce
  rw [ompReduce_sum groups step c hg 0 SIZE_MOD_pos,
    foldl_step_sum (List.range nb) step c hg 0 SIZE_MOD_pos, (hperm.map c).sum_eq]

/-- C6: for every input and every assignment of the blocks to workers (the groups, taken
together, are a rearrangement of `0, ..., nb - 1`), the reduction of the worker-local sums
modulo `2^64` gives the burst total and the category total of the loop run over the blocks
in index order. -/
theorem schedule_invariance (mallocOk : Nat → Bool) (a : List Transaction) (n : Nat)
    (W : Int) (T : Nat) (starts ends : List Nat) (nb : Nat) (groups : List (List Nat))
    (hperm : groups.flatten.Perm (List.range nb)) :
    ompReduce (burstStep a W T starts ends) groups =
      countBurst_parallel a n W T starts ends nb ∧
    ompReduce (noveltyStep mallocOk a starts ends) groups =
      countCategoryNovelty_parallel mallocOk a n starts ends nb :=
  ⟨ompReduce_eq groups nb _ (burstLocal a W T starts ends) (fun _ _ _ => rfl) hperm,
   ompReduce_eq groups nb _ (noveltyLocal mallocOk a starts ends)
     (fun s b h => noveltyStep_eq mallocOk a starts ends s b h) hperm⟩

theorem schedule_invariance_witness :
    ompReduce (burstStep sampleTx 300 2 [0, 6, 7] [6, 7, 8]) [[2], [], [1, 0]] =
      countBurst_parallel sampleTx 8 300 2 [0, 6, 7] [6, 7, 8] 3 ∧
    ompReduce (noveltyStep allocOk sampleTx [0, 6, 7] [6, 7, 8]) [[2], [], [1, 0]] =
      countCategoryNovelty_parallel allocOk sampleTx 8 [0, 6, 7] [6, 7, 8] 3 :=
  schedule_invariance allocOk sampleTx 8 300 2 [0, 6, 7] [6, 7, 8] 3 [[2], [], [1, 0]]
    (by decide)

/-! ## Allocation failure -/

theorem sum_map_ite_filter (l : List Nat) (p : Nat → Bool) (f : Nat → Nat) :
    (l.map (fun x => if p x = true then f x else 0)).sum = ((l.filter p).map f).sum := by
  induction l with
  | nil => rfl
  | cons x l ih =>
    by_cases h : p x = true
    · simp [List.filter_cons, h, ih]
    · simp [List.filter_cons, h, ih]

theorem noveltyLocal_oracle (mallocOk : Nat → Bool) (a : List Transaction)
    (starts ends : List Nat) (bi : Nat) :
    noveltyLocal mallocOk a starts ends bi =
      if mallocOk bi = true then noveltyLocal allocOk a starts ends bi else 0 := by
  unfold noveltyLocal
  by_cases h : mallocOk bi = true
  · simp [h, allocOk]
  · simp [h]

/-- C7 as stated fails.  On the three blocks of `sampleTx`, with the allocation of block
`1` failing, `countCategoryNovelty_parallel` returns `4` instead of `5`: a bare count that
leaves the distinct categories of block `1` out, the same kind of value as a run without
failure returns, with nothing that marks it as degraded.  In the serial function the
unchecked null pointer is written through and the run has no result. -/
theorem alloc_failure_counterexample :
    build_card_blocks sampleTx 8 = ([0, 6, 7], [6, 7, 8], 3) ∧
    countCategoryNovelty_parallel allocOk sampleTx 8 [0, 6, 7] [6, 7, 8] 3 = 5 ∧
    countCategoryNovelty_parallel failSecond sampleTx 8 [0, 6, 7] [6, 7, 8] 3 = 4 ∧
    countCategoryNovelty_parallel allocOk sampleTx 8 [0, 7] [6, 8] 2 = 4 ∧
    countCategoryNovelty_likeSource failAll sampleTx 8 = none := by
  decide

/-- C7, amended: in `countCategoryNovelty_parallel` a block whose allocation fails leaves
the accumulator as it is and the loop goes on to the next block; the total returned is the
total of the same loop run, with every allocation succeeding, over the blocks whose
allocation succeeded. -/
theorem alloc_failure_skips_block (mallocOk : Nat → Bool) (a : List Transaction) (n : Nat)
    (starts ends : List Nat) (nb : Nat) :
    (∀ sum bi, mallocOk bi = false → noveltyStep mallocOk a starts ends sum bi = sum) ∧
    countCategoryNovelty_parallel mallocOk a n starts ends nb =
      ((List.range nb).filter (fun bi => mallocOk bi)).foldl
        (noveltyStep allocOk a starts ends) 0 := by
  constructor
  · intro sum bi h
    unfold noveltyStep
    simp [h]
  · unfold countCategoryNovelty_parallel
    rw [foldl_step_sum _ _ (noveltyLocal mallocOk a starts ends)
        (fun s b h => noveltyStep_eq mallocOk a starts ends s b h) 0 SIZE_MOD_pos,
      foldl_step_sum _ _ (noveltyLocal allocOk a starts ends)
        (fun s b h => noveltyStep_eq allocOk a starts ends s b h) 0 SIZE_MOD_pos]
    congr 2
    rw [← sum_map_ite_filter]
    congr 1
    apply List.map_congr_left
    intro bi _
    exact noveltyLocal_oracle mallocOk a starts ends bi

/-! ## Short blocks and the empty input -/

theorem sub_ll_self (x : Int) : sub_ll x x = 0 := by
  unfold sub_ll wrap_ll
  norm_num

/-- With a window `W >= 0` and `start <= end <= j`, the inner loop leaves `end` strictly
above `start` (the element `a[start]` itself passes the test), at most at `j`, and not below
its previous value; no assumption on the timestamps. -/
theorem advanceEnd_bounds (a : List Transaction) (W : Int) (j start e : Nat) (hW : 0 ≤ W)
    (hsj : start < j) (h2 : start ≤ e) (h3 : e ≤ j) :
    start < advanceEnd a W j start e ∧ advanceEnd a W j start e ≤ j ∧
      e ≤ advanceEnd a W j start e := by
  have hge : e ≤ advanceEnd a W j start e := scanWhile_ge _ _ _ _
  have hle : advanceEnd a W j start e ≤ j := scanWhile_le _ _ _ _ h3
  refine ⟨?_, hle, hge⟩
  by_contra hc
  have h' : advanceEnd a W j start e = start := by omega
  have hstop := scanWhile_stop j
    (fun k => decide (sub_ll (tx a k).unix_time (tx a start).unix_time ≤ W)) (j - e) e
    (Nat.le_refl _)
  apply hstop
  unfold advanceEnd at h'
  rw [h']
  refine ⟨hsj, ?_⟩
  rw [decide_eq_true_eq, sub_ll_self]
  exact hW

/-- A block shorter than `T` leaves the counter as it is. -/
theorem burstLoop_short (a : List Transaction) (W : Int) (T i j : Nat) (hW : 0 ≤ W)
    (hj : j < SIZE_MOD) (hT : j - i < T) (fuel start e cnt : Nat)
    (h1 : i ≤ start) (h2 : start ≤ e) (h3 : e ≤ j) :
    burstLoop a W T j fuel start e cnt = cnt := by
  induction fuel generalizing start e cnt with
  | zero => simp [burstLoop]
  | succ f ih =>
    simp only [burstLoop]
    by_cases hsj : start < j
    · rw [if_pos hsj]
      obtain ⟨b1, b2, b3⟩ := advanceEnd_bounds a W j start e hW hsj h2 h3
      rw [sub_sz_eq _ _ (by omega) (by omega), if_neg (by omega)]
      exact ih (start + 1) _ cnt (by omega) b1 b2
    · rw [if_neg hsj]

theorem burstBlock_short (a : List Transaction) (W : Int) (T i j cnt : Nat) (hW : 0 ≤ W)
    (hj : j < SIZE_MOD) (hT : j - i < T) : burstBlock a W T i j cnt = cnt := by
  unfold burstBlock
  by_cases hij : i ≤ j
  · exact burstLoop_short a W T i j hW hj hT (j - i) i i cnt (Nat.le_refl _) (Nat.le_refl _) hij
  · have : j - i = 0 := by omega
    rw [this]
    rfl

theorem foldl_fixed {β : Type} (L : List β) (g : Nat → β → Nat) (c : Nat)
    (h : ∀ b, b ∈ L → g c b = c) : L.foldl g c = c := by
  induction L with
  | nil => rfl
  | cons x L ih =>
    rw [List.foldl_cons, h x (List.mem_cons_self _ _)]
    exact ih (fun b hb => h b (List.mem_cons_of_mem _ hb))

/-- C11: for `W >= 0`, a block `[i, j)` with any timestamps and a threshold `T` above the
block size `j - i`, the block scan leaves the counter unchanged (`local_cnt = 0` in the
parallel file); hence `countBurst` returns `0` on every input all of whose blocks, as
listed by `build_card_blocks`, have fewer than `T` transactions. -/
theorem burst_short_block (a : List Transaction) (W : Int) (T : Nat) (hW : 0 ≤ W)
    (hn : a.length < SIZE_MOD) :
    (∀ i j cnt, j ≤ a.length → j - i < T → burstBlock a W T i j cnt = cnt) ∧
    (∀ starts ends bi, ends.getD bi 0 ≤ a.length →
      ends.getD bi 0 - starts.getD bi 0 < T → burstLocal a W T starts ends bi = 0) ∧
    ((∀ k, k < (build_card_blocks a a.length).2.2 →
        (build_card_blocks a a.length).2.1.getD k 0 -
          (build_card_blocks a a.length).1.getD k 0 < T) →
      countBurst a a.length W T = 0) := by
  refine ⟨fun i j cnt hj hT => burstBlock_short a W T i j cnt hW (by omega) hT,
    fun starts ends bi hj hT => burstBlock_short a W T _ _ 0 hW (by omega) hT, ?_⟩
  by_cases h0 : a.length = 0
  · intro _
    rw [h0]; rfl
  · rw [build_card_blocks_eq a a.length (by omega) hn, segs_eq_blocksAt a a.length (by omega)]
    intro hsmall
    unfold countBurst
    rw [countBurstLoop_blocks a a.length W T a.length 0 0 (by omega)]
    apply foldl_fixed
    intro b hb
    obtain ⟨k, hk, rfl⟩ := List.getElem_of_mem hb
    obtain ⟨_, p2, _, _⟩ := blocksAt_props a a.length a.length 0 (by omega) (Nat.zero_le _)
    have hS : ((blocksAt a a.length 0).map Prod.fst).getD k 0 =
        ((blocksAt a a.length 0).getD k (0, 0)).1 :=
      List.getD_map (blocksAt a a.length 0) (0, 0) Prod.fst
    have hE : ((blocksAt a a.length 0).map Prod.snd).getD k 0 =
        ((blocksAt a a.length 0).getD k (0, 0)).2 :=
      List.getD_map (blocksAt a a.length 0) (0, 0) Prod.snd
    have hsm := hsmall k (by simpa using hk)
    simp only [hS, hE] at hsm
    rw [List.getD_eq_getElem _ _ hk] at hsm
    have hle := (p2 k hk).2.2.le
    rw [List.getD_eq_getElem _ _ hk] at hle
    exact burstBlock_short a W T _ _ 0 hW (by omega) hsm

theorem burst_short_block_witness :
    countBurst sampleTx sampleTx.length 300 7 = 0 :=
  (burst_short_block sampleTx 300 7 (by decide) (by decide)).2.2 (by decide)

/-- C13: for `n = 0`, `build_card_blocks` returns no block (`nb = 0`, both arrays `NULL`),
and the serial and the parallel burst and category counters return `0` for every `W` and
`T`; no allocation is requested, so the result does not depend on the allocator. -/
theorem empty_input (a : List Transaction) (W : Int) (T : Nat) (mallocOk : Nat → Bool) :
    build_card_blocks a 0 = ([], [], 0) ∧
    countBurst a 0 W T = 0 ∧
    countBurst_parallel a 0 W T (build_card_blocks a 0).1 (build_card_blocks a 0).2.1
      (build_card_blocks a 0).2.2 = 0 ∧
    countCategoryNovelty_likeSource mallocOk a 0 = some 0 ∧
    countCategoryNovelty_parallel mallocOk a 0 (build_card_blocks a 0).1
      (build_card_blocks a 0).2.1 (build_card_blocks a 0).2.2 = 0 :=
  ⟨rfl, rfl, rfl, rfl, rfl⟩

/-! ## Safety of the burst scan -/

theorem scanSteps_eq (bound : Nat) (p : Nat → Bool) (fuel k : Nat) :
    scanSteps bound p fuel k = scanWhile bound p fuel k - k := by
  induction fuel generalizing k with
  | zero => simp [scanSteps, scanWhile]
  | succ f ih =>
    simp only [scanSteps, scanWhile]
    split
    · rw [ih (k + 1)]
      have := scanWhile_ge bound p f (k + 1)
      omega
    · simp

theorem scanReads_mem (bound : Nat) (p : Nat → Bool) (fuel k r : Nat)
    (h : r ∈ scanReads bound p fuel k) : k ≤ r ∧ r < bound := by
  induction fuel generalizing k with
  | zero => simp [scanReads] at h
  | succ f ih =>
    simp only [scanReads] at h
    split at h
    · rename_i hk
      rcases List.mem_cons.1 h with h | h
      · omega
      · split at h
        · have := ih (k + 1) h
          omega
        · simp at h
    · simp at h

/-- The recorded scan decides the counter of `burstLoop`: the counter is incremented at
the recorded iterations with `end - start >= T`. -/
theorem burstLoop_trace (a : List Transaction) (W : Int) (T j fuel start e cnt : Nat) :
    burstLoop a W T j fuel start e cnt =
      (burstTrace a W j fuel start e).foldl
        (fun c r => if T ≤ sub_sz r.endOut r.start then inc_sz c else c) cnt := by
  induction fuel generalizing start e cnt with
  | zero => rfl
  | succ f ih =>
    simp only [burstLoop, burstTrace]
    split
    · rw [List.foldl_cons]
      exact ih _ _ _
    · rfl

/-- Invariants of the recorded scan of a block for a window `W >= 0`. -/
theorem burstTrace_props (a : List Transaction) (W : Int) (j : Nat) (hW : 0 ≤ W)
    (fuel start e : Nat) (h2 : start ≤ e) (h3 : e ≤ j) (hf : j - start ≤ fuel) :
    (burstTrace a W j fuel start e).map ScanStep.start = List.range' start (j - start) ∧
    (∀ r, r ∈ burstTrace a W j fuel start e →
      start ≤ r.start ∧ r.start < j ∧ r.start < r.endOut ∧ r.endOut ≤ j ∧
      e ≤ r.endIn ∧ r.endIn ≤ r.endOut ∧ r.steps = r.endOut - r.endIn ∧
      ∀ k, k ∈ r.reads → r.start ≤ k ∧ k < j) ∧
    ((burstTrace a W j fuel start e).map ScanStep.endOut).Pairwise (fun x y => x ≤ y) ∧
    ((burstTrace a W j fuel start e).map ScanStep.steps).sum ≤ j - e := by
  induction fuel generalizing start e with
  | zero =>
    have : j - start = 0 := by omega
    simp [burstTrace, this]
  | succ f ih =>
    simp only [burstTrace]
    by_cases hsj : start < j
    · rw [if_pos hsj]
      obtain ⟨b1, b2, b3⟩ := advanceEnd_bounds a W j start e hW hsj h2 h3
      obtain ⟨q1, q2, q3, q4⟩ := ih (start + 1) (advanceEnd a W j start e) b1 b2 (by omega)
      have hsteps : scanSteps j
          (fun k => decide (sub_ll (tx a k).unix_time (tx a start).unix_time ≤ W)) (j - e) e =
          advanceEnd a W j start e - e := scanSteps_eq _ _ _ _
      refine ⟨?_, ?_, ?_, ?_⟩
      · rw [List.map_cons, q1]
        have : j - start = (j - (start + 1)) + 1 := by omega
        rw [this, List.range'_succ]
      · intro r hr
        rcases List.mem_cons.1 hr with hr | hr
        · subst hr
          refine ⟨Nat.le_refl _, hsj, b1, b2, Nat.le_refl _, b3, hsteps, ?_⟩
          intro k hk
          have := scanReads_mem _ _ _ _ _ hk
          dsimp only
          exact ⟨by omega, this.2⟩
        · obtain ⟨c1, c2, c3, c4, c5, c6, c7, c8⟩ := q2 r hr
          exact ⟨by omega, c2, c3, c4, by omega, c6, c7, c8⟩
      · rw [List.map_cons, List.pairwise_cons]
        refine ⟨?_, q3⟩
        intro y hy
        obtain ⟨r, hr, rfl⟩ := List.mem_map.1 hy
        obtain ⟨_, _, _, _, c5, c6, _, _⟩ := q2 r hr
        exact Nat.le_trans c5 c6
      · rw [List.map_cons, List.sum_cons]
        simp only
        rw [hsteps]
        omega
    · rw [if_neg hsj]
      have : j - start = 0 := by omega
      simp [this]

/-- C17: in the burst scan of a block `[i, j)` with `W >= 0` and any timestamps, the
iterations run over `start = i, ..., j - 1`; whenever `end - start` is evaluated,
`start < end <= j`, so the `size_t` subtraction does not wrap; `end` never decreases;
every index read as `a[end]` or `a[start]` lies in `[i, j)`; and `end++` runs at most
`j - i` times for the block. -/
theorem burst_scan_safety (a : List Transaction) (W : Int) (i j : Nat) (hW : 0 ≤ W)
    (hij : i ≤ j) (hj : j < SIZE_MOD) :
    (∀ T cnt, burstBlock a W T i j cnt =
      (burstTrace a W j (j - i) i i).foldl
        (fun c r => if T ≤ sub_sz r.endOut r.start then inc_sz c else c) cnt) ∧
    (burstTrace a W j (j - i) i i).map ScanStep.start = List.range' i (j - i) ∧
    (∀ r, r ∈ burstTrace a W j (j - i) i i →
      r.start < r.endOut ∧ r.endOut ≤ j ∧ sub_sz r.endOut r.start = r.endOut - r.start ∧
      r.endIn ≤ r.endOut ∧ r.steps = r.endOut - r.endIn ∧
      i ≤ r.start ∧ r.start < j ∧ ∀ k, k ∈ r.reads → i ≤ k ∧ k < j) ∧
    ((burstTrace a W j (j - i) i i).map ScanStep.endOut).Pairwise (fun x y => x ≤ y) ∧
    ((burstTrace a W j (j - i) i i).map ScanStep.steps).sum ≤ j - i := by
  obtain ⟨q1, q2, q3, q4⟩ :=
    burstTrace_props a W j hW (j - i) i i (Nat.le_refl _) hij (Nat.le_refl _)
  refine ⟨fun T cnt => burstLoop_trace a W T j (j - i) i i cnt, q1, ?_, q3, q4⟩
  intro r hr
  obtain ⟨c1, c2, c3, c4, c5, c6, c7, c8⟩ := q2 r hr
  refine ⟨c3, c4, sub_sz_eq _ _ (by omega) (by omega), c6, c7, c1, c2, ?_⟩
  intro k hk
  have := c8 k hk
  exact ⟨by omega, this.2⟩

theorem burst_scan_safety_witness :
    (burstTrace traceTx 300 5 5 0 0).map ScanStep.endOut = [3, 4, 5, 5, 5] ∧
    ((burstTrace traceTx 300 5 5 0 0).map ScanStep.steps).sum ≤ 5 :=
  ⟨by decide, (burst_scan_safety traceTx 300 0 5 (by decide) (by decide) (by decide)).2.2.2.2⟩

/-! ## Monotonicity of the burst count -/

theorem burstLoop_le (a : List Transaction) (W : Int) (T j fuel start e cnt : Nat)
    (hc : cnt + (j - start) < SIZE_MOD) :
    burstLoop a W T j fuel start e cnt ≤ cnt + (j - start) := by
  induction fuel generalizing start e cnt with
  | zero => simp [burstLoop]
  | succ f ih =>
    simp only [burstLoop]
    by_cases hsj : start < j
    · rw [if_pos hsj]
      split
      · rw [inc_sz_eq cnt (by omega)]
        have := ih (start + 1) (advanceEnd a W j start e) (cnt + 1) (by omega)
        omega
      · have := ih (start + 1) (advanceEnd a W j start e) cnt (by omega)
        omega
    · rw [if_neg hsj]
      omega

/-- A wider window moves the stop index of the inner loop to the right. -/
theorem advanceEnd_mono (a : List Transaction) (W1 W2 : Int) (hW : W1 ≤ W2)
    (j start e1 e2 : Nat) (h12 : e1 ≤ e2) (h2 : e2 ≤ j) :
    advanceEnd a W1 j start e1 ≤ advanceEnd a W2 j start e2 := by
  by_contra hc
  have hlt : advanceEnd a W2 j start e2 < advanceEnd a W1 j start e1 := by omega
  have hge2 : e2 ≤ advanceEnd a W2 j start e2 := scanWhile_ge _ _ _ _
  have hle1 : advanceEnd a W1 j start e1 ≤ j := scanWhile_le _ _ _ _ (by omega)
  have hall := scanWhile_all j
    (fun k => decide (sub_ll (tx a k).unix_time (tx a start).unix_time ≤ W1)) (j - e1) e1
    (advanceEnd a W2 j start e2) (by omega) hlt
  have hstop := scanWhile_stop j
    (fun k => decide (sub_ll (tx a k).unix_time (tx a start).unix_time ≤ W2)) (j - e2) e2
    (Nat.le_refl _)
  have hlt2 : advanceEnd a W2 j start e2 < j := by omega
  apply hstop
  refine ⟨hlt2, ?_⟩
  have h := hall.2
  rw [decide_eq_true_eq] at h ⊢
  exact le_trans h hW

theorem burstLoop_mono_W (a : List Transaction) (W1 W2 : Int) (T j : Nat) (hW1 : 0 ≤ W1)
    (hW : W1 ≤ W2) (hj : j < SIZE_MOD) (fuel start e1 e2 c1 c2 : Nat)
    (h1 : start ≤ e1) (h12 : e1 ≤ e2) (h2 : e2 ≤ j) (hc : c1 ≤ c2)
    (hb : c2 + (j - start) < SIZE_MOD) :
    burstLoop a W1 T j fuel start e1 c1 ≤ burstLoop a W2 T j fuel start e2 c2 := by
  induction fuel generalizing start e1 e2 c1 c2 with
  | zero => simpa [burstLoop] using hc
  | succ f ih =>
    simp only [burstLoop]
    by_cases hsj : start < j
    · rw [if_pos hsj, if_pos hsj]
      obtain ⟨b1, b2, _⟩ := advanceEnd_bounds a W1 j start e1 hW1 hsj h1 (by omega)
      obtain ⟨d1, d2, _⟩ := advanceEnd_bounds a W2 j start e2 (by omega) hsj (by omega) h2
      have hm := advanceEnd_mono a W1 W2 hW j start e1 e2 h12 h2
      rw [sub_sz_eq _ _ (by omega) (by omega), sub_sz_eq _ _ (by omega) (by omega)]
      apply ih (start + 1) _ _ _ _ b1 hm d2
      · by_cases hq : T ≤ advanceEnd a W1 j start e1 - start
        · rw [if_pos hq, if_pos (by omega), inc_sz_eq c1 (by omega), inc_sz_eq c2 (by omega)]
          omega
        · rw [if_neg hq]
          split
          · rw [inc_sz_eq c2 (by omega)]; omega
          · exact hc
      · split
        · rw [inc_sz_eq c2 (by omega)]; omega
        · omega
    · rw [if_neg hsj, if_neg hsj]
      exact hc

theorem burstLoop_mono_T (a : List Transaction) (W : Int) (T1 T2 j : Nat) (hT : T1 ≤ T2)
    (fuel start e c1 c2 : Nat) (hc : c1 ≤ c2) (hb : c2 + (j - start) < SIZE_MOD) :
    burstLoop a W T2 j fuel start e c1 ≤ burstLoop a W T1 j fuel start e c2 := by
  induction fuel generalizing start e c1 c2 with
  | zero => simpa [burstLoop] using hc
  | succ f ih =>
    simp only [burstLoop]
    by_cases hsj : start < j
    · rw [if_pos hsj, if_pos hsj]
      apply ih (start + 1)
      · by_cases hq : T2 ≤ sub_sz (advanceEnd a W j start e) start
        · rw [if_pos hq, if_pos (by omega), inc_sz_eq c1 (by omega), inc_sz_eq c2 (by omega)]
          omega
        · rw [if_neg hq]
          split
          · rw [inc_sz_eq c2 (by omega)]; omega
          · exact hc
      · split
        · rw [inc_sz_eq c2 (by omega)]; omega
        · omega
    · rw [if_neg hsj, if_neg hsj]
      exact hc

theorem burstLoop_zero (a : List Transaction) (W : Int) (j fuel start e cnt : Nat)
    (hf : j - start ≤ fuel) (hb : cnt + (j - start) < SIZE_MOD) :
    burstLoop a W 0 j fuel start e cnt = cnt + (j - start) := by
  induction fuel generalizing start e cnt with
  | zero =>
    have : j - start = 0 := by omega
    simp [burstLoop, this]
  | succ f ih =>
    simp only [burstLoop]
    by_cases hsj : start < j
    · rw [if_pos hsj, if_pos (Nat.zero_le _), inc_sz_eq cnt (by omega),
        ih (start + 1) _ (cnt + 1) (by omega) (by omega)]
      omega
    · rw [if_neg hsj]
      omega

/-- The serial outer loop is monotone in whatever makes the block scan monotone. -/
theorem countBurstLoop_mono (a : List Transaction) (n : Nat) (W1 W2 : Int) (T1 T2 : Nat)
    (hblock : ∀ i j c1 c2, i ≤ j → j ≤ n → c1 ≤ c2 → c2 + (j - i) < SIZE_MOD →
      burstBlock a W1 T1 i j c1 ≤ burstBlock a W2 T2 i j c2)
    (fuel i s1 s2 : Nat) (hi : i ≤ n) (hs : s1 ≤ s2) (hb : s2 + (n - i) < SIZE_MOD) :
    countBurstLoop a n W1 T1 fuel i s1 ≤ countBurstLoop a n W2 T2 fuel i s2 := by
  induction fuel generalizing i s1 s2 with
  | zero => simpa [countBurstLoop] using hs
  | succ f ih =>
    simp only [countBurstLoop]
    by_cases hin : i < n
    · rw [if_pos hin, if_pos hin]
      have hgt := blockEnd_gt a n i hin
      have hle := blockEnd_le a n i (tx a i).cc_num hi
      apply ih _ _ _ hle
      · exact hblock _ _ _ _ (by omega) hle hs (by omega)
      · have := burstLoop_le a W2 T2 (blockEnd a n (tx a i).cc_num i)
          (blockEnd a n (tx a i).cc_num i - i) i i s2 (by omega)
        unfold burstBlock
        omega
    · rw [if_neg hin, if_neg hin]
      exact hs

theorem countBurstLoop_zero (a : List Transaction) (n : Nat) (W : Int) (fuel i s : Nat)
    (hi : i ≤ n) (hf : n - i ≤ fuel) (hb : s + (n - i) < SIZE_MOD) :
    countBurstLoop a n W 0 fuel i s = s + (n - i) := by
  induction fuel generalizing i s with
  | zero =>
    have : n - i = 0 := by omega
    simp [countBurstLoop, this]
  | succ f ih =>
    simp only [countBurstLoop]
    by_cases hin : i < n
    · rw [if_pos hin]
      have hgt := blockEnd_gt a n i hin
      have hle := blockEnd_le a n i (tx a i).cc_num hi
      unfold burstBlock
      rw [burstLoop_zero a W _ _ i i s (Nat.le_refl _) (by omega),
        ih _ _ hle (by omega) (by omega)]
      omega
    · rw [if_neg hin]
      omega

/-- C19: for an array of `size_t` length, `countBurst` does not decrease when the window
grows from `W1 >= 0` to `W2 >= W1`, does not increase when the threshold grows from `T1`
to `T2 >= T1` (for every window), and returns `n` for `T = 0`; sortedness of the input
is not needed. -/
theorem countBurst_monotone (a : List Transaction) (W1 W2 : Int) (T1 T2 : Nat)
    (hn : a.length < SIZE_MOD) (hW1 : 0 ≤ W1) (hW : W1 ≤ W2) (hT : T1 ≤ T2) :
    (∀ T, countBurst a a.length W1 T ≤ countBurst a a.length W2 T) ∧
    (∀ W, countBurst a a.length W T2 ≤ countBurst a a.length W T1) ∧
    (∀ W, countBurst a a.length W 0 = a.length) := by
  refine ⟨fun T => ?_, fun W => ?_, fun W => ?_⟩
  · apply countBurstLoop_mono a a.length W1 W2 T T _ a.length 0 0 0 (Nat.zero_le _)
      (Nat.le_refl _) (by omega)
    intro i j c1 c2 hij hj hc hb
    exact burstLoop_mono_W a W1 W2 T j hW1 hW (by omega) (j - i) i i i c1 c2 (Nat.le_refl _)
      (Nat.le_refl _) hij hc hb
  · apply countBurstLoop_mono a a.length W W T2 T1 _ a.length 0 0 0 (Nat.zero_le _)
      (Nat.le_refl _) (by omega)
    intro i j c1 c2 hij hj hc hb
    exact burstLoop_mono_T a W T1 T2 j hT (j - i) i i c1 c2 hc hb
  · unfold countBurst
    rw [countBurstLoop_zero a a.length W a.length 0 0 (Nat.zero_le _) (by omega) (by omega)]
    omega

theorem countBurst_monotone_witness :
    countBurst sortedTx sortedTx.length 100 3 ≤ countBurst sortedTx sortedTx.length 300 3 ∧
    countBurst sortedTx sortedTx.length 300 3 ≤ countBurst sortedTx sortedTx.length 300 2 ∧
    countBurst sortedTx sortedTx.length 300 0 = 7 :=
  ⟨(countBurst_monotone sortedTx 100 300 2 3 (by decide) (by decide) (by decide)
      (by decide)).1 3,
   (countBurst_monotone sortedTx 100 300 2 3 (by decide) (by decide) (by decide)
      (by decide)).2.1 300,
   (countBurst_monotone sortedTx 100 300 2 3 (by decide) (by decide) (by decide)
      (by decide)).2.2 300⟩

/-! ## The comparators -/

theorem cmp_tx_eq_lexSign (x y : Transaction) : Serial.cmp_tx x y = lexSign x y := by
  unfold Serial.cmp_tx lexSign
  rcases lt_trichotomy x.cc_num y.cc_num with h | h | h
  · simp [h, not_lt.2 (le_of_lt h)]
  · rcases lt_trichotomy x.unix_time y.unix_time with h2 | h2 | h2
    · simp [h, h2, not_lt.2 (le_of_lt h2)]
    · simp [h, h2]
    · simp [h, h2, not_lt.2 (le_of_lt h2), ne_of_gt h2]
  · simp [h, not_lt.2 (le_of_lt h), ne_of_gt h]

theorem cmp_tx_parallel_eq_lexSign (x y : Transaction) : Parallel.cmp_tx x y = lexSign x y := by
  unfold Parallel.cmp_tx lexSign
  rcases lt_trichotomy x.cc_num y.cc_num with h | h | h
  · simp [h, not_lt.2 (le_of_lt h)]
  · rcases lt_trichotomy x.unix_time y.unix_time with h2 | h2 | h2
    · simp [h, h2, not_lt.2 (le_of_lt h2)]
    · simp [h, h2]
    · simp [h, h2, not_lt.2 (le_of_lt h2), ne_of_gt h2]
  · simp [h, not_lt.2 (le_of_lt h), ne_of_gt h]

theorem lexSign_le_zero (x y : Transaction) :
    lexSign x y ≤ 0 ↔
      x.cc_num < y.cc_num ∨ (x.cc_num = y.cc_num ∧ x.unix_time ≤ y.unix_time) := by
  unfold lexSign
  split_ifs with h1 h2
  · constructor
    · intro _
      rcases h1 with h | ⟨h, h'⟩
      · exact Or.inl h
      · exact Or.inr ⟨h, le_of_lt h'⟩
    · intro _; omega
  · constructor
    · intro _; exact Or.inr ⟨h2.1, le_of_eq h2.2⟩
    · intro _; omega
  · constructor
    · intro h; omega
    · rintro (h | ⟨h, h'⟩)
      · exact absurd (Or.inl h) h1
      · exfalso
        rcases lt_or_eq_of_le h' with h3 | h3
        · exact h1 (Or.inr ⟨h, h3⟩)
        · exact h2 ⟨h, h3⟩

theorem cmp_tx_le_zero (x y : Transaction) :
    Serial.cmp_tx x y ≤ 0 ↔
      x.cc_num < y.cc_num ∨ (x.cc_num = y.cc_num ∧ x.unix_time ≤ y.unix_time) := by
  rw [cmp_tx_eq_lexSign]
  exact lexSign_le_zero x y

theorem cmp_tx_trans (x y z : Transaction) (h1 : Serial.cmp_tx x y ≤ 0)
    (h2 : Serial.cmp_tx y z ≤ 0) : Serial.cmp_tx x z ≤ 0 := by
  rw [cmp_tx_le_zero] at h1 h2 ⊢
  omega

instance cmp_tx_isTotal : IsTotal Transaction (fun x y => Serial.cmp_tx x y ≤ 0) :=
  ⟨fun x y => by
    simp only [cmp_tx_le_zero]
    omega⟩

instance cmp_tx_isTrans : IsTrans Transaction (fun x y => Serial.cmp_tx x y ≤ 0) :=
  ⟨cmp_tx_trans⟩

theorem tx_eq_getElem (l : List Transaction) (p : Nat) (h : p < l.length) : tx l p = l[p] := by
  unfold tx
  exact List.getD_eq_getElem _ _ h

/-- A list in which `cmp_tx` is non-positive on every pair in order is sorted by
`(cc_num, unix_time)`. -/
theorem sortedTx_of_pairwise (l : List Transaction)
    (h : l.Pairwise (fun x y => Serial.cmp_tx x y ≤ 0)) : SortedTx l := by
  intro p q hpq hq
  have := List.pairwise_iff_getElem.1 h p q (by omega) hq hpq
  rw [cmp_tx_le_zero, ← tx_eq_getElem l p (by omega), ← tx_eq_getElem l q hq] at this
  constructor
  · omega
  · intro he; omega

/-- C16: the serial and the parallel `cmp_tx` return the same value, the sign of the
lexicographic comparison of `(cc_num, unix_time)`; the value is `0` exactly when both
fields agree, `cmp_tx(x, y) = -cmp_tx(y, x)`, the relation `cmp_tx <= 0` is transitive,
and an array sorted with it (by `qsort`, or in any order with `cmp_tx <= 0` on the pairs
in order) is sorted by `(cc_num, unix_time)`. -/
theorem cmp_tx_agree (x y z : Transaction) (l : List Transaction) :
    Serial.cmp_tx x y = Parallel.cmp_tx x y ∧
    Serial.cmp_tx x y = lexSign x y ∧
    (Serial.cmp_tx x y = -1 ∨ Serial.cmp_tx x y = 0 ∨ Serial.cmp_tx x y = 1) ∧
    (Serial.cmp_tx x y = 0 ↔ x.cc_num = y.cc_num ∧ x.unix_time = y.unix_time) ∧
    Serial.cmp_tx x y = -Serial.cmp_tx y x ∧
    (Serial.cmp_tx x y ≤ 0 → Serial.cmp_tx y z ≤ 0 → Serial.cmp_tx x z ≤ 0) ∧
    (l.Pairwise (fun u v => Serial.cmp_tx u v ≤ 0) → SortedTx l) ∧
    (qsort Serial.cmp_tx l).Perm l ∧ SortedTx (qsort Serial.cmp_tx l) ∧
    SortedTx (qsort Parallel.cmp_tx l) := by
  have hpar : Parallel.cmp_tx = Serial.cmp_tx := by
    funext u v
    rw [cmp_tx_eq_lexSign, cmp_tx_parallel_eq_lexSign]
  refine ⟨by rw [hpar], cmp_tx_eq_lexSign x y, ?_, ?_, ?_, cmp_tx_trans x y z,
    sortedTx_of_pairwise l, List.perm_insertionSort _ l,
    sortedTx_of_pairwise _ (List.sorted_insertionSort _ l), ?_⟩
  · rw [cmp_tx_eq_lexSign]
    unfold lexSign
    split_ifs <;> simp
  · rw [cmp_tx_eq_lexSign]
    unfold lexSign
    split_ifs with h1 h2
    · constructor
      · intro h; norm_num at h
      · rintro ⟨h, h'⟩
        rcases h1 with h3 | ⟨_, h3⟩ <;> omega
    · simp [h2.1, h2.2]
    · constructor
      · intro h; norm_num at h
      · intro h; exact absurd h h2
  · rw [cmp_tx_eq_lexSign, cmp_tx_eq_lexSign]
    unfold lexSign
    split_ifs <;> omega
  · rw [hpar]
    exact sortedTx_of_pairwise _ (List.sorted_insertionSort _ l)

theorem fillLog_eq (a : List Transaction) (n : Nat) (fuel i bi s : Nat) :
    (fillLog a n fuel i bi s).map (fun w => w.1) =
      List.range' bi (segs a n fuel i s).length ∧
    (fillLog a n fuel i bi s).map (fun w => w.2) = segs a n fuel i s := by
  induction fuel generalizing i bi s with
  | zero => simp [fillLog, segs]
  | succ f ih =>
    simp only [fillLog, segs]
    by_cases hin : i ≤ n
    · rw [if_pos hin, if_pos hin]
      by_cases hb : i = n ∨ (tx a i).cc_num ≠ (tx a (i - 1)).cc_num
      · rw [if_pos hb, if_pos hb]
        obtain ⟨h1, h2⟩ := ih (i + 1) (bi + 1) i
        simp only [List.map_cons, List.length_cons, List.range'_succ, h1, h2, and_self]
      · rw [if_neg hb, if_neg hb]
        exact ih (i + 1) bi s
    · rw [if_neg hin, if_neg hin]
      simp

/-- The second pass is the replay of its log: every change of the two arrays is a logged
write. -/
theorem fillBlocks_replay (a : List Transaction) (n : Nat) (fuel i bi s : Nat)
    (starts ends : List Nat) :
    fillBlocks a n fuel i bi s starts ends =
      ((fillLog a n fuel i bi s).foldl (fun arr w => arr.set w.1 w.2.1) starts,
       (fillLog a n fuel i bi s).foldl (fun arr w => arr.set w.1 w.2.2) ends) := by
  induction fuel generalizing i bi s starts ends with
  | zero => rfl
  | succ f ih =>
    simp only [fillBlocks, fillLog]
    by_cases hin : i ≤ n
    · rw [if_pos hin, if_pos hin]
      by_cases hb : i = n ∨ (tx a i).cc_num ≠ (tx a (i - 1)).cc_num
      · rw [if_pos hb, if_pos hb, List.foldl_cons, List.foldl_cons]
        exact ih _ _ _ _ _
      · rw [if_neg hb, if_neg hb]
        exact ih _ _ _ _ _
    · rw [if_neg hin, if_neg hin]
      rfl

/-- The first pass adds to `nb` the number of account changes it passes. -/
theorem countBlocks_eq (a : List Transaction) (n : Nat) (fuel i nb : Nat) (hi : i + fuel = n)
    (hnb : nb + fuel < SIZE_MOD) :
    countBlocks a n fuel i nb = nb + ((List.range' i fuel).filter
      (fun k => decide ((tx a k).cc_num ≠ (tx a (k - 1)).cc_num))).length := by
  induction fuel generalizing i nb with
  | zero => simp [countBlocks]
  | succ f ih =>
    have hin : i < n := by omega
    rw [countBlocks, if_pos hin, List.range'_succ, List.filter_cons]
    by_cases hb : (tx a i).cc_num ≠ (tx a (i - 1)).cc_num
    · rw [if_pos hb, if_pos (by simpa using hb), inc_sz_eq nb (by omega),
        ih (i + 1) (nb + 1) (by omega) (by omega)]
      simp only [List.length_cons]
      omega
    · rw [if_neg hb, if_neg (by simpa using hb), ih (i + 1) nb (by omega) (by omega)]

/-- C18: for an array of length `1 <= n < 2^64`, the second pass of `build_card_blocks`
performs exactly `nb` writes `starts[bi] = s; ends[bi] = i;`, at `bi = 0, 1, ..., nb - 1`
in that order, where `nb` is the result of the first pass, `1` plus the number of
positions `i` in `[1, n)` with `a[i].cc_num != a[i-1].cc_num`; the arrays have `nb`
entries and hold the written values, so no write is outside them and no entry is left
unwritten. -/
theorem build_card_blocks_writes (a : List Transaction) (h1 : 1 ≤ a.length)
    (hn : a.length < SIZE_MOD) :
    (∀ starts ends, fillBlocks a a.length a.length 1 0 0 starts ends =
      ((fillLog a a.length a.length 1 0 0).foldl (fun arr w => arr.set w.1 w.2.1) starts,
       (fillLog a a.length a.length 1 0 0).foldl (fun arr w => arr.set w.1 w.2.2) ends)) ∧
    (build_card_blocks a a.length).2.2 = countBlocks a a.length (a.length - 1) 1 1 ∧
    (build_card_blocks a a.length).2.2 = 1 + accountChanges a a.length ∧
    (fillLog a a.length a.length 1 0 0).map (fun w => w.1) =
      List.range (build_card_blocks a a.length).2.2 ∧
    (build_card_blocks a a.length).1 = (fillLog a a.length a.length 1 0 0).map (fun w => w.2.1) ∧
    (build_card_blocks a a.length).2.1 =
      (fillLog a a.length a.length 1 0 0).map (fun w => w.2.2) ∧
    (build_card_blocks a a.length).1.length = (build_card_blocks a a.length).2.2 ∧
    (build_card_blocks a a.length).2.1.length = (build_card_blocks a a.length).2.2 := by
  have hnb : (build_card_blocks a a.length).2.2 = countBlocks a a.length (a.length - 1) 1 1 := by
    unfold build_card_blocks
    rw [if_neg (by omega)]
  have hcount := countBlocks_eq a a.length (a.length - 1) 1 1 (by omega) (by omega)
  obtain ⟨l1, l2⟩ := fillLog_eq a a.length a.length 1 0 0
  refine ⟨fillBlocks_replay a a.length a.length 1 0 0, hnb, ?_, ?_, ?_, ?_, ?_, ?_⟩
  · rw [hnb, hcount]; rfl
  · rw [l1, build_card_blocks_eq a a.length h1 hn, List.range_eq_range']
  · rw [build_card_blocks_eq a a.length h1 hn, ← l2]
    simp only [List.map_map]
    rfl
  · rw [build_card_blocks_eq a a.length h1 hn, ← l2]
    simp only [List.map_map]
    rfl
  · rw [build_card_blocks_eq a a.length h1 hn]; simp
  · rw [build_card_blocks_eq a a.length h1 hn]; simp

theorem build_card_blocks_writes_witness :
    (fillLog sampleTx 8 8 1 0 0).map (fun w => w.1) = [0, 1, 2] ∧
    (build_card_blocks sampleTx sampleTx.length).2.2 = 1 + accountChanges sampleTx 8 :=
  ⟨by decide, (build_card_blocks_writes sampleTx (by decide) (by decide)).2.2.1⟩

/-! ## Bounds of the category count -/

theorem distinctCount_pos (l : List String) (h : l ≠ []) : 1 ≤ distinctCount l := by
  unfold distinctCount
  cases l with
  | nil => exact absurd rfl h
  | cons x l =>
    have : x ∈ (x :: l).dedup := List.mem_dedup.2 (List.mem_cons_self _ _)
    exact List.length_pos_of_mem this

theorem distinctCount_eq_one (l : List String) (x : String) (hx : x ∈ l) :
    distinctCount l = 1 ↔ ∀ y, y ∈ l → y = x := by
  unfold distinctCount
  rw [← List.card_toFinset, Finset.card_eq_one]
  constructor
  · rintro ⟨z, hz⟩ y hy
    have h1 : x ∈ l.toFinset := List.mem_toFinset.2 hx
    have h2 : y ∈ l.toFinset := List.mem_toFinset.2 hy
    rw [hz, Finset.mem_singleton] at h1 h2
    rw [h1, h2]
  · intro h
    refine ⟨x, ?_⟩
    ext y
    rw [List.mem_toFinset, Finset.mem_singleton]
    exact ⟨h y, fun e => e ▸ hx⟩

theorem mem_blockCats (a : List Transaction) (i m : Nat) (y : String) :
    y ∈ blockCats a i m ↔ ∃ k, k < m ∧ (tx a (i + k)).category = y := by
  simp [blockCats]

/-- Distinct count of the categories of a non-empty block: between `1` and the size of the
block, and `1` exactly when every transaction carries the category of the first. -/
theorem distinctCount_block (a : List Transaction) (i m : Nat) (hm : 1 ≤ m) :
    1 ≤ distinctCount (blockCats a i m) ∧ distinctCount (blockCats a i m) ≤ m ∧
    (distinctCount (blockCats a i m) = 1 ↔
      ∀ k, k < m → (tx a (i + k)).category = (tx a i).category) := by
  have hlen := blockCats_length a i m
  have hne : blockCats a i m ≠ [] := by
    intro h
    rw [h] at hlen
    simp at hlen
    omega
  have hx : (tx a i).category ∈ blockCats a i m :=
    (mem_blockCats a i m _).2 ⟨0, by omega, rfl⟩
  refine ⟨distinctCount_pos _ hne, ?_, ?_⟩
  · have := distinctCount_le (blockCats a i m)
    omega
  · rw [distinctCount_eq_one _ _ hx]
    constructor
    · intro h k hk
      exact h _ ((mem_blockCats a i m _).2 ⟨k, hk, rfl⟩)
    · intro h y hy
      obtain ⟨k, hk, rfl⟩ := (mem_blockCats a i m _).1 hy
      exact h k hk

/-- The sum of the per-block counts over the blocks from `s` lies between the number of
blocks and the number of elements. -/
theorem foldl_unique_bounds (a : List Transaction) (n : Nat) (hn : n < SIZE_MOD)
    (fuel s acc : Nat) (hf : n - s ≤ fuel) (hs : s ≤ n) (hacc : acc + (n - s) < SIZE_MOD) :
    acc + (blocksAt a n s).length ≤
      (blocksAt a n s).foldl (fun t b => add_sz t
        (uniqueLoop (sortedCats a b.1 (sub_sz b.2 b.1)) (sub_sz b.2 b.1) (sub_sz b.2 b.1) 0 0))
        acc ∧
    (blocksAt a n s).foldl (fun t b => add_sz t
        (uniqueLoop (sortedCats a b.1 (sub_sz b.2 b.1)) (sub_sz b.2 b.1) (sub_sz b.2 b.1) 0 0))
        acc ≤ acc + (n - s) := by
  induction fuel generalizing s acc with
  | zero =>
    rw [blocksAt_of_ge a n s (by omega)]
    simp
  | succ f ih =>
    by_cases hsn : s < n
    · have hgt := blockEnd_gt a n s hsn
      have hle := blockEnd_le a n s (tx a s).cc_num hs
      rw [blocksAt_cons a n s hsn, List.foldl_cons, List.length_cons]
      simp only
      rw [sub_sz_eq _ _ (by omega) (by omega), uniqueLoop_block a s _ (by omega)]
      obtain ⟨d1, d2, _⟩ := distinctCount_block a s (blockEnd a n (tx a s).cc_num s - s)
        (by omega)
      rw [add_sz_eq _ _ (by omega)]
      obtain ⟨q1, q2⟩ := ih (blockEnd a n (tx a s).cc_num s)
        (acc + distinctCount (blockCats a s (blockEnd a n (tx a s).cc_num s - s)))
        (by omega) hle (by omega)
      constructor
      · omega
      · omega
    · rw [blocksAt_of_ge a n s (by omega)]
      simp

/-- C12: with every allocation succeeding and `n` a `size_t`, a non-empty block `[i, j)`
contributes to the category count (serial and parallel loop alike) at least `1` and at
most its size, and exactly `1` if and only if all its transactions carry the same category
string; the total is at least the number of blocks and at most `n`. -/
theorem novelty_bounds (a : List Transaction) (hn : a.length < SIZE_MOD) :
    (∀ i j, i < j → j ≤ a.length →
      1 ≤ uniqueLoop (sortedCats a i (j - i)) (j - i) (j - i) 0 0 ∧
      uniqueLoop (sortedCats a i (j - i)) (j - i) (j - i) 0 0 ≤ j - i ∧
      (uniqueLoop (sortedCats a i (j - i)) (j - i) (j - i) 0 0 = 1 ↔
        ∀ k, k < j - i → (tx a (i + k)).category = (tx a i).category) ∧
      groupLoop (sortedCats a i (j - i)) (j - i) (j - i) 0 0 =
        uniqueLoop (sortedCats a i (j - i)) (j - i) (j - i) 0 0) ∧
    ∃ total, countCategoryNovelty_likeSource allocOk a a.length = some total ∧
      countCategoryNovelty_parallel allocOk a a.length (build_card_blocks a a.length).1
        (build_card_blocks a a.length).2.1 (build_card_blocks a a.length).2.2 = total ∧
      (build_card_blocks a a.length).2.2 ≤ total ∧ total ≤ a.length := by
  constructor
  · intro i j hij hj
    rw [uniqueLoop_block a i (j - i) (by omega), groupLoop_block a i (j - i) (by omega)]
    obtain ⟨d1, d2, d3⟩ := distinctCount_block a i (j - i) (by omega)
    exact ⟨d1, d2, d3, rfl⟩
  · by_cases h0 : a.length = 0
    · refine ⟨0, ?_, ?_, ?_, ?_⟩
      · rw [h0]; rfl
      · rw [h0]; rfl
      · rw [h0]; exact Nat.le_refl _
      · exact Nat.zero_le _
    · have hser : countCategoryNovelty_likeSource allocOk a a.length = _ :=
        noveltyLoop_blocks a a.length a.length 0 0 (by omega)
      have hpar := serial_parallel_novelty a hn
      obtain ⟨q1, q2⟩ := foldl_unique_bounds a a.length hn a.length 0 0 (by omega)
        (Nat.zero_le _) (by omega)
      refine ⟨_, hser, ?_, ?_, ?_⟩
      · rw [hser] at hpar
        exact (Option.some.inj hpar).symm
      · rw [build_card_blocks_eq a a.length (by omega) hn, segs_eq_blocksAt a a.length (by omega)]
        simpa using q1
      · simpa using q2

theorem novelty_bounds_witness :
    ∃ total, countCategoryNovelty_likeSource allocOk sampleTx sampleTx.length = some total ∧
      countCategoryNovelty_parallel allocOk sampleTx sampleTx.length
        (build_card_blocks sampleTx sampleTx.length).1
        (build_card_blocks sampleTx sampleTx.length).2.1
        (build_card_blocks sampleTx sampleTx.length).2.2 = total ∧
      (build_card_blocks sampleTx sampleTx.length).2.2 ≤ total ∧ total ≤ sampleTx.length :=
  (novelty_bounds sampleTx (by decide)).2

/-! ## Blocks of an array sorted by account -/

/-- Every position below `n` lies in one of the listed blocks. -/
theorem blocks_cover (L : List (Nat × Nat)) (n : Nat)
    (h0 : 0 < L.length → (L.getD 0 (0, 0)).1 = 0)
    (hc : ∀ k, k + 1 < L.length → (L.getD k (0, 0)).2 = (L.getD (k + 1) (0, 0)).1)
    (hl : 0 < L.length → (L.getD (L.length - 1) (0, 0)).2 = n)
    (hpos : 0 < L.length) (p : Nat) (hp : p < n) :
    ∃ k, k < L.length ∧ (L.getD k (0, 0)).1 ≤ p ∧ p < (L.getD k (0, 0)).2 := by
  have key : ∀ d k, k + d + 1 = L.length → (L.getD k (0, 0)).1 ≤ p →
      ∃ k', k' < L.length ∧ (L.getD k' (0, 0)).1 ≤ p ∧ p < (L.getD k' (0, 0)).2 := by
    intro d
    induction d with
    | zero =>
      intro k hk hle
      refine ⟨k, by omega, hle, ?_⟩
      have := hl hpos
      have hk' : L.length - 1 = k := by omega
      rw [hk'] at this
      omega
    | succ d ih =>
      intro k hk hle
      by_cases hlt : p < (L.getD k (0, 0)).2
      · exact ⟨k, by omega, hle, hlt⟩
      · apply ih (k + 1) (by omega)
        rw [← hc k (by omega)]
        omega
  exact key (L.length - 1) 0 (by omega) (by rw [h0 hpos]; exact Nat.zero_le _)

/-- On an array sorted by account, the accounts of the block starts increase strictly. -/
theorem block_accounts_strict (a : List Transaction) (n : Nat) (L : List (Nat × Nat))
    (hs : ∀ q, q < n → ∀ p, p < q → (tx a p).cc_num ≤ (tx a q).cc_num)
    (hb : ∀ k, k < L.length → (L.getD k (0, 0)).1 < (L.getD k (0, 0)).2 ∧
      IsBlock a n (L.getD k (0, 0)).1 (L.getD k (0, 0)).2)
    (hc : ∀ k, k + 1 < L.length → (L.getD k (0, 0)).2 = (L.getD (k + 1) (0, 0)).1)
    (k d : Nat) (hk : k + d + 1 < L.length) :
    (tx a (L.getD k (0, 0)).1).cc_num < (tx a (L.getD (k + d + 1) (0, 0)).1).cc_num := by
  induction d with
  | zero =>
    have h1 := hb k (by omega)
    have h2 := hb (k + 1) (by omega)
    have he := hc k (by omega)
    have hlt : (L.getD k (0, 0)).2 < n := by
      have := h2.2.le
      omega
    have hne := h1.2.stop hlt
    have hle := hs (L.getD k (0, 0)).2 hlt (L.getD k (0, 0)).1 h1.1
    rw [← he]
    omega
  | succ d ih =>
    have h1 := hb (k + d + 1) (by omega)
    have h2 := hb (k + d + 1 + 1) (by omega)
    have he := hc (k + d + 1) (by omega)
    have hlt : (L.getD (k + d + 1) (0, 0)).2 < n := by
      have := h2.2.le
      omega
    have hne := h1.2.stop hlt
    have hle := hs (L.getD (k + d + 1) (0, 0)).2 hlt (L.getD (k + d + 1) (0, 0)).1 h1.1
    have := ih (by omega)
    have e : k + (d + 1) + 1 = k + d + 1 + 1 := by omega
    rw [e, ← he]
    omega

theorem block_accounts_lt (a : List Transaction) (n : Nat) (L : List (Nat × Nat))
    (hs : ∀ q, q < n → ∀ p, p < q → (tx a p).cc_num ≤ (tx a q).cc_num)
    (hb : ∀ k, k < L.length → (L.getD k (0, 0)).1 < (L.getD k (0, 0)).2 ∧
      IsBlock a n (L.getD k (0, 0)).1 (L.getD k (0, 0)).2)
    (hc : ∀ k, k + 1 < L.length → (L.getD k (0, 0)).2 = (L.getD (k + 1) (0, 0)).1)
    (k k' : Nat) (hkk : k < k') (hk : k' < L.length) :
    (tx a (L.getD k (0, 0)).1).cc_num < (tx a (L.getD k' (0, 0)).1).cc_num := by
  have := block_accounts_strict a n L hs hb hc k (k' - k - 1) (by omega)
  have e : k + (k' - k - 1) + 1 = k' := by omega
  rw [e] at this
  exact this

/-- Properties of the block list of an array sorted by account. -/
theorem sorted_blocks (a : List Transaction) (n : Nat) (h1 : 1 ≤ n)
    (hs : ∀ q, q < n → ∀ p, p < q → (tx a p).cc_num ≤ (tx a q).cc_num) :
    (∀ k, k + 1 < (blocksAt a n 0).length →
      (tx a ((blocksAt a n 0).getD k (0, 0)).1).cc_num <
        (tx a ((blocksAt a n 0).getD (k + 1) (0, 0)).1).cc_num) ∧
    (∀ k, k < (blocksAt a n 0).length → ∀ p, p < n →
      (tx a p).cc_num = (tx a ((blocksAt a n 0).getD k (0, 0)).1).cc_num →
      ((blocksAt a n 0).getD k (0, 0)).1 ≤ p ∧ p < ((blocksAt a n 0).getD k (0, 0)).2) ∧
    (blocksAt a n 0).length = ((List.range n).map (fun p => (tx a p).cc_num)).dedup.length := by
  obtain ⟨p1, p2, p3, p4⟩ := blocksAt_props a n n 0 (by omega) (Nat.zero_le _)
  have hb : ∀ k, k < (blocksAt a n 0).length →
      ((blocksAt a n 0).getD k (0, 0)).1 < ((blocksAt a n 0).getD k (0, 0)).2 ∧
      IsBlock a n ((blocksAt a n 0).getD k (0, 0)).1 ((blocksAt a n 0).getD k (0, 0)).2 :=
    fun k hk => ⟨(p2 k hk).2.1, (p2 k hk).2.2⟩
  have hpos := (p1 (by omega)).1
  have hcover := blocks_cover (blocksAt a n 0) n (fun _ => (p1 (by omega)).2) p3 p4 hpos
  have hlt := block_accounts_lt a n (blocksAt a n 0) hs hb p3
  refine ⟨fun k hk => hlt k (k + 1) (by omega) hk, ?_, ?_⟩
  · intro k hk p hp he
    obtain ⟨k', hk', c1, c2⟩ := hcover p hp
    have hu := (hb k' hk').2.uniform p c1 c2
    rw [he] at hu
    rcases Nat.lt_trichotomy k k' with h | h | h
    · have := hlt k k' h hk'
      omega
    · subst h
      exact ⟨c1, c2⟩
    · have := hlt k' k h hk
      omega
  · rw [← List.card_toFinset]
    have himg : ((List.range n).map (fun p => (tx a p).cc_num)).toFinset =
        (Finset.range (blocksAt a n 0).length).image
          (fun k => (tx a ((blocksAt a n 0).getD k (0, 0)).1).cc_num) := by
      ext c
      simp only [List.mem_toFinset, List.mem_map, List.mem_range, Finset.mem_image,
        Finset.mem_range]
      constructor
      · rintro ⟨p, hp, rfl⟩
        obtain ⟨k', hk', c1, c2⟩ := hcover p hp
        exact ⟨k', hk', ((hb k' hk').2.uniform p c1 c2).symm⟩
      · rintro ⟨k, hk, rfl⟩
        refine ⟨((blocksAt a n 0).getD k (0, 0)).1, ?_, rfl⟩
        have := (hb k hk).2.le
        have := (hb k hk).1
        omega
    rw [himg, Finset.card_image_of_injOn, Finset.card_range]
    intro k hk k' hk' he
    simp only [Finset.coe_range, Set.mem_Iio] at hk hk'
    simp only at he
    rcases Nat.lt_trichotomy k k' with h | h | h
    · have := hlt k k' h hk'
      omega
    · exact h
    · have := hlt k' k h hk
      omega

/-- C14: on an array sorted by `cc_num` (of `size_t` length), the accounts of the blocks of
`build_card_blocks` increase strictly from one block to the next, every block holds all
transactions of its account, and the number of blocks is the number of distinct `cc_num`
values; on the unsorted `sampleTx` the blocks `0` and `2` carry the same account. -/
theorem sorted_blocks_one_per_account (a : List Transaction) (hs : SortedAcc a)
    (hn : a.length < SIZE_MOD) :
    (∀ k, k + 1 < (build_card_blocks a a.length).2.2 →
      (tx a ((build_card_blocks a a.length).1.getD k 0)).cc_num <
        (tx a ((build_card_blocks a a.length).1.getD (k + 1) 0)).cc_num) ∧
    (∀ k, k < (build_card_blocks a a.length).2.2 → ∀ p, p < a.length →
      (tx a p).cc_num = (tx a ((build_card_blocks a a.length).1.getD k 0)).cc_num →
      (build_card_blocks a a.length).1.getD k 0 ≤ p ∧
        p < (build_card_blocks a a.length).2.1.getD k 0) ∧
    (build_card_blocks a a.length).2.2 =
      ((List.range a.length).map (fun p => (tx a p).cc_num)).dedup.length ∧
    (¬ SortedAcc sampleTx ∧
      (tx sampleTx ((build_card_blocks sampleTx 8).1.getD 0 0)).cc_num =
        (tx sampleTx ((build_card_blocks sampleTx 8).1.getD 2 0)).cc_num) := by
  refine ⟨?_, ?_, ?_, by decide⟩
  all_goals
    by_cases h0 : a.length = 0
    · rw [h0]
      first
        | (intro k hk; exact absurd hk (by simp [build_card_blocks]))
        | rfl
    · rw [build_card_blocks_eq a a.length (by omega) hn,
        segs_eq_blocksAt a a.length (by omega)]
      obtain ⟨q1, q2, q3⟩ := sorted_blocks a a.length (by omega) hs
      have hS : ∀ k, ((blocksAt a a.length 0).map Prod.fst).getD k 0 =
          ((blocksAt a a.length 0).getD k (0, 0)).1 :=
        fun k => List.getD_map (blocksAt a a.length 0) (0, 0) Prod.fst
      have hE : ∀ k, ((blocksAt a a.length 0).map Prod.snd).getD k 0 =
          ((blocksAt a a.length 0).getD k (0, 0)).2 :=
        fun k => List.getD_map (blocksAt a a.length 0) (0, 0) Prod.snd
      simp only [hS, hE]
      first
        | exact q1
        | exact q2
        | exact q3

theorem sorted_blocks_one_per_account_witness :
    (build_card_blocks sortedTx sortedTx.length).2.2 =
      ((List.range sortedTx.length).map (fun p => (tx sortedTx p).cc_num)).dedup.length :=
  (sorted_blocks_one_per_account sortedTx (by decide) (by decide)).2.2.1

end PDC
